import Mathlib

/-!
Verification of the e-commerce data-cleaning pipeline
(`scripts/clean_data.py`).

The pipeline operates on an in-memory table of order rows.  Cells are
shallowly embedded by `Val`: a cell is either absent (pandas `NaN`), a
text string, a decimal number (Python floats are modelled as exact
rationals; the data domain is 2-decimal currency values, where CPython's
`str`/`float` round-trip is exact), or an integer.

Strings are processed through their character lists.  Python's ASCII
text operations (`str.strip`, `re \s`, `str.lower`, `str.title`,
`str.isdigit`-based extraction) are modelled character by character;
the source data is ASCII.
-/

/- Batteries marks the rational field operations irreducible, which
blocks `decide` on concrete rational computations; restore the default
reducibility for this development. -/
attribute [local semireducible] Rat.mul Rat.add Rat.sub Rat.inv

/-- Python `\s` / `str.strip` whitespace characters (ASCII range). -/
def isWS (c : Char) : Bool :=
  c = ' ' || c = '\t' || c = '\n' || c = '\r' || c = '\x0b' || c = '\x0c'

/-- Leading-whitespace removal (one side of Python `str.strip`). -/
def dropLeadWS (l : List Char) : List Char := l.dropWhile isWS

/-- Trailing-whitespace removal (the other side of `str.strip`): drop
the maximal whitespace suffix.  A character is kept unless it is
whitespace and everything after it is dropped. -/
def dropTrailWS : List Char → List Char
  | [] => []
  | c :: cs => if isWS c ∧ dropTrailWS cs = [] then [] else c :: dropTrailWS cs

/-- Python `str.strip()` on a character list. -/
def stripL (l : List Char) : List Char := dropTrailWS (dropLeadWS l)

/-- `re.sub(r'\s+', ' ', s)`: collapse every whitespace run to a single
space.  The flag records whether the previous character was whitespace
(in which case this whitespace character belongs to an already-emitted
run). -/
def collapseAux : Bool → List Char → List Char
  | _, [] => []
  | prevWS, c :: cs =>
    if isWS c then
      if prevWS then collapseAux true cs else ' ' :: collapseAux true cs
    else
      c :: collapseAux false cs

/-- Collapse whitespace runs, starting outside a run. -/
def collapseL (l : List Char) : List Char := collapseAux false l

/-- `str.replace('\t', ' ')`. -/
def replaceTabL (l : List Char) : List Char :=
  l.map (fun c => if c = '\t' then ' ' else c)

/-- The whitespace normalisation applied per text cell by
`clean_whitespace`: strip, then collapse `\s+` to one space, then map
tabs to spaces (the code's third pass; dead after collapsing, which is
proved below, but kept for fidelity). -/
def wsStr (v : String) : String :=
  ⟨replaceTabL (collapseL (stripL v.data))⟩

/-- Python `str.strip()` alone (used by the whitespace-issue counter in
`clean_whitespace`, which compares only against the stripped form). -/
def stripStr (v : String) : String := ⟨stripL v.data⟩

/-- Python `str.lower()` (ASCII model; `Char.toLower` is exactly the
basic-latin lowering CPython applies to ASCII input). -/
def lowerStr (v : String) : String := ⟨v.data.map Char.toLower⟩

/-- One character of Python `str.title()`: a cased (here: ASCII letter)
character is uppercased when the previous character was not cased, and
lowercased otherwise; other characters are unchanged. -/
def titleChar (prevAlpha : Bool) (c : Char) : Char :=
  if c.isAlpha then (if prevAlpha then c.toLower else c.toUpper) else c

/-- Python `str.title()` on a character list; the flag tracks whether
the previous character was cased. -/
def titleAux : Bool → List Char → List Char
  | _, [] => []
  | prev, c :: cs => titleChar prev c :: titleAux c.isAlpha cs

/-- Python `str.title()`. -/
def titleStr (v : String) : String := ⟨titleAux false v.data⟩

/-- A cell of the table: pandas `NaN`, a string, a decimal number
(float modelled as an exact rational) or an integer. -/
inductive Val where
  | absent
  | s (v : String)
  | q (v : ℚ)
  | n (v : Int)
deriving DecidableEq

/-- `pd.isna` as a Bool. -/
def Val.isAbsent : Val → Bool
  | .absent => true
  | _ => false

/-- Python `str(x)` as used by `astype(str)` / `str(phone)` etc.
`str(nan) = "nan"`.  The renderings of numbers are abstractions of
CPython's (`str(int)` is exact; `str(float)` is the shortest
round-tripping decimal, which contains no `/`); every claim below
touches numeric cells only where the exact rendering is irrelevant. -/
def valToStr : Val → String
  | .absent => "nan"
  | .s v => v
  | .q v => toString v.num ++ "/" ++ toString v.den
  | .n v => toString v

/-- One row of the order table, one field per CSV column. -/
structure Row where
  order_id : Val
  customer_name : Val
  email : Val
  phone : Val
  order_date : Val
  product_name : Val
  category : Val
  quantity : Val
  price : Val
  status : Val
deriving DecidableEq

/-- The table buffer: rows in insertion order. -/
abbrev Table := List Row

/-- One record of `cleaning_log` as appended by `log_change`. -/
structure Entry where
  step : String
  description : String
  count : Nat
deriving DecidableEq

/-- A calendar date (the `datetime` values of the script are pure
dates: `strptime` of a date-only format yields midnight, so comparison
with `datetime.now()` reduces to date comparison, midnight of today
never being strictly in the future). -/
structure Date where
  year : Nat
  month : Nat
  day : Nat
deriving DecidableEq

/-- Strict order on dates (lexicographic). -/
def dateLt (a b : Date) : Bool :=
  a.year < b.year ||
    (a.year = b.year &&
      (a.month < b.month || (a.month = b.month && a.day < b.day)))

/-- Gregorian leap year, as implemented by `datetime`. -/
def isLeap (y : Nat) : Bool :=
  y % 4 = 0 && (y % 100 ≠ 0 || y % 400 = 0)

/-- Days in a month, as validated by the `datetime` constructor. -/
def monthLen (y m : Nat) : Nat :=
  if m = 2 then (if isLeap y then 29 else 28)
  else if m = 4 || m = 6 || m = 9 || m = 11 then 30
  else 31

/-- The `datetime(y, m, d)` constructor succeeds exactly on these
values (month and day lower bounds are enforced by the `strptime`
regexes, the rest here). -/
def validDate (d : Date) : Bool :=
  1 ≤ d.year && d.year ≤ 9999 && 1 ≤ d.month && d.month ≤ 12 &&
    1 ≤ d.day && d.day ≤ monthLen d.year d.month

/-! ## Email standardisation (`standardize_emails`) -/

/-- Characters of the local part of the validation pattern,
`[a-zA-Z0-9._%+-]`. -/
def localChar (c : Char) : Bool :=
  c.isAlpha || c.isDigit || c = '.' || c = '_' || c = '%' || c = '+' || c = '-'

/-- Characters of the domain part, `[a-zA-Z0-9.-]`. -/
def domChar (c : Char) : Bool :=
  c.isAlpha || c.isDigit || c = '.' || c = '-'

/-- Does the part after `@` match `[a-zA-Z0-9.-]+\.[a-zA-Z]{2,}` in
full?  A regex with backtracking matches exactly when some split at a
dot works. -/
def emailDomOK (cs : List Char) : Bool :=
  (List.range cs.length).any (fun i =>
    decide (1 ≤ i) && cs.getD i ' ' = '.' && (cs.take i).all domChar &&
      (cs.drop (i + 1)).all Char.isAlpha && decide (2 ≤ cs.length - (i + 1)))

/-- Full-string match against
`^[a-zA-Z0-9._%+-]+@[a-zA-Z0-9.-]+\.[a-zA-Z]{2,}$`.  Since `@` belongs
to no character class of the pattern, the separating `@` is the first
one. -/
def emailFull (v : String) : Bool :=
  let cs := v.data
  let lp := cs.takeWhile (· != '@')
  match cs.dropWhile (· != '@') with
  | '@' :: rest => !lp.isEmpty && lp.all localChar && emailDomOK rest
  | _ => false

/-- The pattern as `re.match` applies it: Python's `$` also matches
just before one newline at the very end of the string. -/
def emailMatch (v : String) : Bool :=
  emailFull v || (v.data.getLast? == some '\n' && emailFull ⟨v.data.dropLast⟩)

/-- `.str.lower()` on one cell: non-strings (including `NaN`) become
`NaN`. -/
def emailLower : Val → Val
  | .s v => .s (lowerStr v)
  | _ => .absent

/-- The email column transform: lower-case, then null the values that
fail `str.match` of the pattern (`na=False`: absent is never
invalid). -/
def emailCell (v : Val) : Val :=
  match emailLower v with
  | .s l => if emailMatch l then .s l else .absent
  | _ => .absent

/-- Row predicate of the logged `invalid_count`: non-absent after
lower-casing, and failing the pattern. -/
def emailCounted (v : Val) : Bool :=
  match emailLower v with
  | .s l => !emailMatch l
  | _ => false

/-! ## Phone standardisation (`clean_phone_numbers`) -/

/-- `re.sub(r'\D', '', s)`: keep only decimal digits. -/
def digitsOf (v : String) : List Char := v.data.filter Char.isDigit

/-- The digit phase of `format_phone`: strip a leading `1` from an
11-digit number, require exactly 10 digits, format as
`DDD-DDD-DDDD`. -/
def formatDigits (ds : List Char) : Val :=
  let ds2 := if ds.length = 11 ∧ ds.headD ' ' = '1' then ds.tail else ds
  if ds2.length = 10 then
    .s ⟨ds2.take 3 ++ '-' :: ((ds2.drop 3).take 3 ++ '-' :: ds2.drop 6)⟩
  else .absent

/-- `format_phone` of the source: extract the digits of `str(phone)`
and format them. -/
def format_phone (v : Val) : Val :=
  match v with
  | .absent => .absent
  | _ => formatDigits (digitsOf (valToStr v))

/-! ## Date standardisation (`standardize_dates`)

The five `strptime` formats are modelled token by token after CPython's
`_strptime` regexes: `%d` is `3[01]|[12]\d|0[1-9]|[1-9]`, `%m` is
`1[0-2]|0[1-9]|[1-9]`, `%Y` is four digits, a space in the format is
`\s+`, month names are matched case-insensitively, the regex must
consume the whole string, and the `datetime` constructor then validates
the calendar day (a failure there makes this format raise and the next
one be tried). -/

/-- Numeric value of an ASCII digit. -/
def digVal (c : Char) : Nat := c.toNat - 48

/-- Candidate parses of `%d`, in regex preference order (two digits
first). -/
def dayCands : List Char → List (Nat × List Char)
  | c1 :: c2 :: rest =>
    (if (c1 = '3' ∧ (c2 = '0' ∨ c2 = '1')) ∨ ((c1 = '1' ∨ c1 = '2') ∧ c2.isDigit)
        ∨ (c1 = '0' ∧ c2.isDigit ∧ c2 ≠ '0') then
      [(10 * digVal c1 + digVal c2, rest)] else [])
    ++ (if c1.isDigit ∧ c1 ≠ '0' then [(digVal c1, c2 :: rest)] else [])
  | [c1] => if c1.isDigit ∧ c1 ≠ '0' then [(digVal c1, [])] else []
  | [] => []

/-- Candidate parses of `%m`, in regex preference order. -/
def monthCands : List Char → List (Nat × List Char)
  | c1 :: c2 :: rest =>
    (if (c1 = '1' ∧ (c2 = '0' ∨ c2 = '1' ∨ c2 = '2')) ∨ (c1 = '0' ∧ c2.isDigit ∧ c2 ≠ '0') then
      [(10 * digVal c1 + digVal c2, rest)] else [])
    ++ (if c1.isDigit ∧ c1 ≠ '0' then [(digVal c1, c2 :: rest)] else [])
  | [c1] => if c1.isDigit ∧ c1 ≠ '0' then [(digVal c1, [])] else []
  | [] => []

/-- `%Y`: exactly four digits. -/
def year4 : List Char → Option (Nat × List Char)
  | c1 :: c2 :: c3 :: c4 :: rest =>
    if c1.isDigit ∧ c2.isDigit ∧ c3.isDigit ∧ c4.isDigit then
      some (1000 * digVal c1 + 100 * digVal c2 + 10 * digVal c3 + digVal c4, rest)
    else none
  | _ => none

/-- A space in a `strptime` format: `\s+` (greedy; every token that can
follow it starts with a non-whitespace character, so greediness is
exact). -/
def ws1 : List Char → Option (List Char)
  | c :: rest => if isWS c then some (rest.dropWhile isWS) else none
  | [] => none

/-- A literal character of the format. -/
def lit (c : Char) : List Char → Option (List Char)
  | d :: rest => if d = c then some rest else none
  | [] => none

/-- `%b` month abbreviations (already lower case; matching is
case-insensitive). -/
def monthAbbrs : List (String × Nat) :=
  [("jan", 1), ("feb", 2), ("mar", 3), ("apr", 4), ("may", 5), ("jun", 6),
   ("jul", 7), ("aug", 8), ("sep", 9), ("oct", 10), ("nov", 11), ("dec", 12)]

/-- `%B` full month names. -/
def monthFulls : List (String × Nat) :=
  [("january", 1), ("february", 2), ("march", 3), ("april", 4), ("may", 5),
   ("june", 6), ("july", 7), ("august", 8), ("september", 9), ("october", 10),
   ("november", 11), ("december", 12)]

/-- Case-insensitive match of one month name from the table (no name is
a prefix of another, so the alternation order is immaterial). -/
def matchName (names : List (String × Nat)) (cs : List Char) : Option (Nat × List Char) :=
  names.findSome? (fun p =>
    let k := p.1.data
    if (cs.take k.length).map Char.toLower = k then some (p.2, cs.drop k.length) else none)

/-- The regex phase of `strptime(s, '%m/%d/%Y')`: first full match in
backtracking order, before calendar validation. -/
def matchMDY (cs : List Char) : Option Date :=
  (monthCands cs).findSome? (fun mc =>
    (lit '/' mc.2).bind (fun r1 =>
      (dayCands r1).findSome? (fun dc =>
        (lit '/' dc.2).bind (fun r2 =>
          match year4 r2 with
          | some (y, []) => some ⟨y, mc.1, dc.1⟩
          | _ => none))))

/-- Regex phase of `strptime(s, '%d-%m-%Y')`. -/
def matchDMY (cs : List Char) : Option Date :=
  (dayCands cs).findSome? (fun dc =>
    (lit '-' dc.2).bind (fun r1 =>
      (monthCands r1).findSome? (fun mc =>
        (lit '-' mc.2).bind (fun r2 =>
          match year4 r2 with
          | some (y, []) => some ⟨y, mc.1, dc.1⟩
          | _ => none))))

/-- Regex phase of `strptime(s, '%Y-%m-%d')`. -/
def matchYMD (cs : List Char) : Option Date :=
  (year4 cs).bind (fun yc =>
    (lit '-' yc.2).bind (fun r1 =>
      (monthCands r1).findSome? (fun mc =>
        (lit '-' mc.2).bind (fun r2 =>
          (dayCands r2).findSome? (fun dc =>
            if dc.2 = [] then some ⟨yc.1, mc.1, dc.1⟩ else none)))))

/-- Regex phase of `strptime(s, '%b %d, %Y')`. -/
def matchBDY (cs : List Char) : Option Date :=
  (matchName monthAbbrs cs).bind (fun mc =>
    (ws1 mc.2).bind (fun r1 =>
      (dayCands r1).findSome? (fun dc =>
        (lit ',' dc.2).bind (fun r2 =>
          (ws1 r2).bind (fun r3 =>
            match year4 r3 with
            | some (y, []) => some ⟨y, mc.1, dc.1⟩
            | _ => none)))))

/-- Regex phase of `strptime(s, '%d %B %Y')`. -/
def matchDBY (cs : List Char) : Option Date :=
  (dayCands cs).findSome? (fun dc =>
    (ws1 dc.2).bind (fun r1 =>
      (matchName monthFulls r1).bind (fun mc =>
        (ws1 mc.2).bind (fun r2 =>
          match year4 r2 with
          | some (y, []) => some ⟨y, mc.1, dc.1⟩
          | _ => none))))

/-- One `strptime` attempt: regex match, then `datetime` calendar
validation (whose failure raises `ValueError`, making the caller try
the next format). -/
def validated (m : Option Date) : Option Date :=
  m.bind (fun d => if validDate d then some d else none)

/-- The `for fmt in date_formats` loop: the five formats in source
order, first success winning. -/
def tryFormats (cs : List Char) : Option Date :=
  (validated (matchMDY cs)).orElse (fun _ =>
    (validated (matchDMY cs)).orElse (fun _ =>
      (validated (matchYMD cs)).orElse (fun _ =>
        (validated (matchBDY cs)).orElse (fun _ =>
          validated (matchDBY cs)))))

/-- The character of one decimal digit. -/
def digitChar (k : Nat) : Char := Char.ofNat (48 + k)

/-- The year as `strftime('%Y')` prints it on this platform (glibc): a
plain decimal number with no zero padding, so year 999 renders as the
three characters `999`.  `datetime` years are 1..9999; the final
branch keeps the function total beyond that range. -/
def yearChars (y : Nat) : List Char :=
  if y < 10 then [digitChar y]
  else if y < 100 then [digitChar (y / 10), digitChar (y % 10)]
  else if y < 1000 then [digitChar (y / 100), digitChar (y / 10 % 10), digitChar (y % 10)]
  else if y < 10000 then
    [digitChar (y / 1000), digitChar (y / 100 % 10), digitChar (y / 10 % 10),
      digitChar (y % 10)]
  else Nat.toDigits 10 y

/-- `strftime('%Y-%m-%d')`: unpadded year, hyphen, zero-padded
two-digit month, hyphen, zero-padded two-digit day. -/
def fmtDate (d : Date) : String :=
  ⟨yearChars d.year ++ '-' :: digitChar (d.month / 10 % 10) :: digitChar (d.month % 10) ::
    '-' :: digitChar (d.day / 10 % 10) :: [digitChar (d.day % 10)]⟩

/-- Decidable check that a date cell renders with a four-digit year:
the ten-character `YYYY-MM-DD` form that re-parses. -/
def fullYearDate (v : Val) : Bool :=
  match v with
  | Val.s u => u.data.length == 10
  | _ => true

/-- `parse_date` of the source: trim, try the formats in order, null a
parse that is strictly in the future, else reformat.  (For a numeric
cell Python would format it with `str`; no number's rendering matches
any of the five formats, and neither does the embedding's.) -/
def parse_date (now : Date) (v : Val) : Val :=
  match v with
  | .absent => .absent
  | _ =>
    match tryFormats (stripL (valToStr v).data) with
    | none => .absent
    | some d => if dateLt now d then .absent else .s (fmtDate d)

/-! ## Price and quantity parsing -/

/-- Value of a digit list read left to right. -/
def digitsToNat (l : List Char) : Nat := l.foldl (fun a c => 10 * a + digVal c) 0

/-- Apply a decimal exponent. -/
def applyExp (x : ℚ) (e : Int) : ℚ :=
  if 0 ≤ e then x * (10 : ℚ) ^ e.toNat else x / (10 : ℚ) ^ (-e).toNat

/-- Exponent digits (at least one). -/
def expDigits (cs : List Char) : Option Int :=
  if cs ≠ [] ∧ cs.all Char.isDigit then some ((digitsToNat cs : Int)) else none

/-- Optional exponent suffix `e`/`E`, optional sign, digits; or end of
string. -/
def parseExp (cs : List Char) : Option Int :=
  match cs with
  | [] => some 0
  | c :: r =>
    if c = 'e' ∨ c = 'E' then
      match r with
      | '+' :: r2 => expDigits r2
      | '-' :: r2 => (expDigits r2).map (fun k => -k)
      | r2 => expDigits r2
    else none

/-- Unsigned mantissa with optional fraction and exponent: the body of
a CPython `float()` literal. -/
def parseMantExp (cs : List Char) : Option ℚ :=
  let ip := cs.takeWhile Char.isDigit
  let r1 := cs.dropWhile Char.isDigit
  match r1 with
  | '.' :: r2 =>
    let fp := r2.takeWhile Char.isDigit
    let r3 := r2.dropWhile Char.isDigit
    if ip = [] ∧ fp = [] then none
    else (parseExp r3).map (fun e =>
      applyExp ((digitsToNat ip : ℚ) + (digitsToNat fp : ℚ) / (10 : ℚ) ^ fp.length) e)
  | _ =>
    if ip = [] then none
    else (parseExp r1).map (fun e => applyExp ((digitsToNat ip : ℚ)) e)

/-- CPython `float(s)` on finite decimal literals: strip whitespace,
optional sign, mantissa and exponent, exact rational value (float
representation error, the `inf`/`nan` spellings and digit underscores
are outside the data domain and not modelled). -/
def pyFloat? (v : String) : Option ℚ :=
  match stripL v.data with
  | '+' :: r => parseMantExp r
  | '-' :: r => (parseMantExp r).map Neg.neg
  | r => parseMantExp r

/-- Python `round()` to an integer: half to even. -/
def roundHalfEven (x : ℚ) : Int :=
  let n := Int.floor x
  let f := x - (n : ℚ)
  if f < 1 / 2 then n
  else if (1 : ℚ) / 2 < f then n + 1
  else if n % 2 = 0 then n else n + 1

/-- `round(x, 2)` on the exact rational value. -/
def round2 (x : ℚ) : ℚ := (roundHalfEven (x * 100) : ℚ) / 100

/-- Python `int()` of a float: truncation toward zero. -/
def truncInt (x : ℚ) : Int := if 0 ≤ x then Int.floor x else -(Int.floor (-x))

/-- Remove every occurrence of a character (`str.replace(c, '')`). -/
def removeChar (c : Char) (v : String) : String := ⟨v.data.filter (· != c)⟩

/-- `parse_price` of the source: strip, delete `$` and `,`, `float()`,
null non-positive values, round to 2 decimals.  A numeric cell passes
through Python's exact `str`/`float` round-trip, so only the sign check
and rounding act on it. -/
def parse_price (v : Val) : Val :=
  match v with
  | .absent => .absent
  | .s t =>
    let p := removeChar ',' (removeChar '$' (stripStr t))
    match pyFloat? p with
    | none => .absent
    | some x => if x ≤ 0 then .absent else .q (round2 x)
  | .q x => if x ≤ 0 then .absent else .q (round2 x)
  | .n k => if k ≤ 0 then .absent else .q (round2 ((k : ℚ)))

/-- `parse_quantity` of the source: strip, `float()`, truncate to int,
null non-positive results.  Numeric cells round-trip through `str`
exactly. -/
def parse_quantity (v : Val) : Val :=
  match v with
  | .absent => .absent
  | .s t =>
    match pyFloat? (stripStr t) with
    | none => .absent
    | some x => if truncInt x ≤ 0 then .absent else .n (truncInt x)
  | .q x => if truncInt x ≤ 0 then .absent else .n (truncInt x)
  | .n k => if k ≤ 0 then .absent else .n k

/-! ## Category and status canonicalisation -/

/-- `category_mapping` of the source, in dictionary order. -/
def category_mapping : List (String × String) :=
  [("electronics", "Electronics"), ("ELECTRONICS", "Electronics"),
   ("elec", "Electronics"), ("Elec", "Electronics"),
   ("clothing", "Clothing"), ("CLOTHING", "Clothing"),
   ("clot", "Clothing"), ("Clot", "Clothing"),
   ("home & garden", "Home & Garden"), ("HOME & GARDEN", "Home & Garden"),
   ("home and garden", "Home & Garden"), ("Home and Garden", "Home & Garden"),
   ("home", "Home & Garden"), ("Home", "Home & Garden"),
   ("books", "Books"), ("BOOKS", "Books"),
   ("book", "Books"), ("Book", "Books")]

/-- `status_mapping` of the source. -/
def status_mapping : List (String × String) :=
  [("pending", "Pending"), ("PENDING", "Pending"),
   ("pnding", "Pending"), ("Pnding", "Pending"),
   ("p", "Pending"), ("P", "Pending"),
   ("shipped", "Shipped"), ("SHIPPED", "Shipped"),
   ("shippd", "Shipped"), ("Shippd", "Shipped"),
   ("ship", "Shipped"), ("Ship", "Shipped"),
   ("delivered", "Delivered"), ("DELIVERED", "Delivered"),
   ("deliverd", "Delivered"), ("Deliverd", "Delivered"),
   ("complete", "Delivered"), ("Complete", "Delivered"),
   ("COMPLETE", "Delivered"),
   ("cancelled", "Cancelled"), ("CANCELLED", "Cancelled"),
   ("canceled", "Cancelled"), ("Canceled", "Cancelled"),
   ("cnclld", "Cancelled"), ("CNCLLD", "Cancelled")]

/-- `Series.replace(mapping)`: exact whole-value match on strings;
other cells (including absent) pass through. -/
def replaceVal (m : List (String × String)) (v : Val) : Val :=
  match v with
  | .s t => .s ((m.lookup t).getD t)
  | x => x

/-- `.str.title()` on one cell: absent stays absent, non-strings become
absent. -/
def titleVal : Val → Val
  | .s t => .s (titleStr t)
  | _ => .absent

/-- `Series.nunique()`: number of distinct non-absent values. -/
def nunique (l : List Val) : Nat := (l.filter (fun v => !v.isAbsent)).dedup.length

/-! ## The nine steps and the pipeline driver

Each step maps the table and returns the log entries it appends (one or
none).  `load_data`, printing and file output are outside the table
semantics; the pipeline is modelled on a given table. -/

/-- Append-if: the `if count > 0: log_change(...)` idiom. -/
def optEntry (b : Bool) (e : Entry) : List Entry := if b then [e] else []

/-- `drop_duplicates` keeping first occurrences: a row is kept exactly
when it has not been seen earlier. -/
def dedupAux (seen : List Row) : List Row → List Row
  | [] => []
  | r :: rs => if r ∈ seen then dedupAux seen rs else r :: dedupAux (r :: seen) rs

/-- `DataFrame.drop_duplicates()` (first occurrence kept, order
preserved). -/
def dedupFirst (t : Table) : Table := dedupAux [] t

/-- `remove_duplicates` of the source. -/
def remove_duplicates (t : Table) : Table × List Entry :=
  let t2 := dedupFirst t
  let c := t.length - t2.length
  (t2, optEntry (decide (0 < c)) ⟨"remove_duplicates", "Duplicate rows removed", c⟩)

/-- The per-cell transform of `clean_whitespace`: `astype(str)` (absent
becomes the string `"nan"`), strip, collapse whitespace, tabs to
spaces. -/
def wsCell (v : Val) : Val := .s (wsStr (valToStr v))

/-- `clean_whitespace` applied to one row's five text columns. -/
def wsRow (r : Row) : Row :=
  { r with customer_name := wsCell r.customer_name, email := wsCell r.email,
           product_name := wsCell r.product_name, category := wsCell r.category,
           status := wsCell r.status }

/-- Per-column whitespace-issue count: rows whose `astype(str)` value
differs from its stripped form. -/
def colWsCount (t : Table) (f : Row → Val) : Nat :=
  t.countP (fun r => stripStr (valToStr (f r)) != valToStr (f r))

/-- `clean_whitespace` of the source; its entry is logged
unconditionally. -/
def clean_whitespace (t : Table) : Table × List Entry :=
  (t.map wsRow,
   [⟨"clean_whitespace", "Whitespace cleaned in text fields",
     colWsCount t (fun r => r.customer_name) + colWsCount t (fun r => r.email) +
       colWsCount t (fun r => r.product_name) + colWsCount t (fun r => r.category) +
       colWsCount t (fun r => r.status)⟩])

/-- `standardize_emails` applied to one row. -/
def emailRow (r : Row) : Row := { r with email := emailCell r.email }

/-- `standardize_emails` of the source. -/
def standardize_emails (t : Table) : Table × List Entry :=
  let c := t.countP (fun r => emailCounted r.email)
  (t.map emailRow, optEntry (decide (0 < c)) ⟨"standardize_emails", "Invalid emails removed", c⟩)

/-- `notna().sum()` over a column. -/
def notnaCount (t : Table) (f : Row → Val) : Nat := t.countP (fun r => !(f r).isAbsent)

/-- `clean_phone_numbers` applied to one row. -/
def phoneRow (r : Row) : Row := { r with phone := format_phone r.phone }

/-- `clean_phone_numbers` of the source: count of non-null values lost
by the column transform. -/
def clean_phone_numbers (t : Table) : Table × List Entry :=
  let t2 := t.map phoneRow
  let c := notnaCount t (fun r => r.phone) - notnaCount t2 (fun r => r.phone)
  (t2, optEntry (decide (0 < c)) ⟨"clean_phone_numbers", "Invalid phone numbers removed", c⟩)

/-- `standardize_dates` applied to one row. -/
def dateRow (now : Date) (r : Row) : Row := { r with order_date := parse_date now r.order_date }

/-- `standardize_dates` of the source. -/
def standardize_dates (now : Date) (t : Table) : Table × List Entry :=
  let t2 := t.map (dateRow now)
  let c := notnaCount t (fun r => r.order_date) - notnaCount t2 (fun r => r.order_date)
  (t2, optEntry (decide (0 < c)) ⟨"standardize_dates", "Invalid dates removed", c⟩)

/-- `clean_prices` applied to one row. -/
def priceRow (r : Row) : Row := { r with price := parse_price r.price }

/-- `clean_prices` of the source. -/
def clean_prices (t : Table) : Table × List Entry :=
  let t2 := t.map priceRow
  let c := notnaCount t (fun r => r.price) - notnaCount t2 (fun r => r.price)
  (t2, optEntry (decide (0 < c)) ⟨"clean_prices", "Invalid prices removed", c⟩)

/-- `clean_quantities` applied to one row. -/
def qtyRow (r : Row) : Row := { r with quantity := parse_quantity r.quantity }

/-- `clean_quantities` of the source. -/
def clean_quantities (t : Table) : Table × List Entry :=
  let t2 := t.map qtyRow
  let c := notnaCount t (fun r => r.quantity) - notnaCount t2 (fun r => r.quantity)
  (t2, optEntry (decide (0 < c)) ⟨"clean_quantities", "Invalid quantities removed", c⟩)

/-- `standardize_categories` applied to one row: mapping lookup, then
`.str.title()` over the whole column. -/
def catRow (r : Row) : Row :=
  { r with category := titleVal (replaceVal category_mapping r.category) }

/-- `standardize_categories` of the source: logs the drop in distinct
values when it is positive. -/
def standardize_categories (t : Table) : Table × List Entry :=
  let ub := nunique (t.map (fun r => r.category))
  let t2 := t.map catRow
  let ua := nunique (t2.map (fun r => r.category))
  (t2, optEntry (decide (ua < ub)) ⟨"standardize_categories", "Category variations consolidated", ub - ua⟩)

/-- `standardize_status` applied to one row (lookup only, no title
casing). -/
def statusRow (r : Row) : Row := { r with status := replaceVal status_mapping r.status }

/-- `standardize_status` of the source. -/
def standardize_status (t : Table) : Table × List Entry :=
  let ub := nunique (t.map (fun r => r.status))
  let t2 := t.map statusRow
  let ua := nunique (t2.map (fun r => r.status))
  (t2, optEntry (decide (ua < ub)) ⟨"standardize_status", "Status variations consolidated", ub - ua⟩)

/-- `run_cleaning_pipeline`: the nine steps in source order over one
table, accumulating the change log. -/
def run_cleaning_pipeline (now : Date) (t : Table) : Table × List Entry :=
  let s1 := remove_duplicates t
  let s2 := clean_whitespace s1.1
  let s3 := standardize_emails s2.1
  let s4 := clean_phone_numbers s3.1
  let s5 := standardize_dates now s4.1
  let s6 := clean_prices s5.1
  let s7 := clean_quantities s6.1
  let s8 := standardize_categories s7.1
  let s9 := standardize_status s8.1
  (s9.1, s1.2 ++ s2.2 ++ s3.2 ++ s4.2 ++ s5.2 ++ s6.2 ++ s7.2 ++ s8.2 ++ s9.2)

/-! ## Sample rows used as concrete inputs -/

/-- A sample row with an absent email. -/
def rowAbsentEmail : Row :=
  { order_id := Val.s "1", customer_name := Val.s "A", email := Val.absent,
    phone := Val.absent, order_date := Val.absent, product_name := Val.s "P",
    category := Val.s "Books", quantity := Val.absent, price := Val.absent,
    status := Val.s "Pending" }

/-- A sample row whose price parses to a positive value that rounds to
zero. -/
def rowTinyPrice : Row :=
  { order_id := Val.s "1", customer_name := Val.s "A", email := Val.s "a@b.com",
    phone := Val.absent, order_date := Val.absent, product_name := Val.s "P",
    category := Val.s "Books", quantity := Val.s "2", price := Val.s "0.004",
    status := Val.s "Pending" }

/-- A sample row whose email carries a trailing newline after an
otherwise valid address. -/
def rowNewlineEmail : Row :=
  { order_id := Val.s "1", customer_name := Val.s "A", email := Val.s "A@B.co\n",
    phone := Val.absent, order_date := Val.absent, product_name := Val.s "P",
    category := Val.s "Books", quantity := Val.absent, price := Val.absent,
    status := Val.s "Pending" }

/-- A sample row whose category is the mapping key `"ELEC"` written in
the case the title pass does not preserve. -/
def rowElec : Row :=
  { order_id := Val.s "1", customer_name := Val.s "A", email := Val.absent,
    phone := Val.absent, order_date := Val.absent, product_name := Val.s "P",
    category := Val.s "ELEC", quantity := Val.absent, price := Val.absent,
    status := Val.s "Pending" }

/-- A sample row every step of the pipeline leaves essentially as is:
well-formed email, phone, date, quantity, price, category and
status. -/
def rowGood : Row :=
  { order_id := Val.s "1", customer_name := Val.s "John", email := Val.s "john@example.com",
    phone := Val.s "(555) 123-4567", order_date := Val.s "2024-01-15",
    product_name := Val.s "P", category := Val.s "Books", quantity := Val.s "2",
    price := Val.s "$5.00", status := Val.s "Pending" }

/-- Decidable check that a category value is not a key of the variant
mapping. -/
def noCatKey (v : Val) : Bool :=
  match v with
  | Val.s u => (category_mapping.lookup u).isNone
  | _ => true

/-! ## Character-level facts -/

theorem chEq_iff {a b : Char} : a = b ↔ a.toNat = b.toNat := by
  constructor
  · intro h
    rw [h]
  · intro h
    rw [← Char.ofNat_toNat a, ← Char.ofNat_toNat b, h]

theorem chOfNat_toNat {n : Nat} (h : n < 55296) : (Char.ofNat n).toNat = n := by
  rw [Char.ofNat, dif_pos (Or.inl h)]
  rfl

theorem toNat_toLower (c : Char) :
    (Char.toLower c).toNat = if 65 ≤ c.toNat ∧ c.toNat ≤ 90 then c.toNat + 32 else c.toNat := by
  rw [Char.toLower]
  by_cases h : 65 ≤ c.toNat ∧ c.toNat ≤ 90
  · rw [if_pos ⟨h.1, h.2⟩, if_pos h, chOfNat_toNat (by omega)]
  · rw [if_neg (fun hc => h ⟨hc.1, hc.2⟩), if_neg h]

theorem toNat_toUpper (c : Char) :
    (Char.toUpper c).toNat = if 97 ≤ c.toNat ∧ c.toNat ≤ 122 then c.toNat - 32 else c.toNat := by
  rw [Char.toUpper]
  by_cases h : 97 ≤ c.toNat ∧ c.toNat ≤ 122
  · rw [if_pos ⟨h.1, h.2⟩, if_pos h, chOfNat_toNat (by omega)]
  · rw [if_neg (fun hc => h ⟨hc.1, hc.2⟩), if_neg h]

theorem isUpper_iff {c : Char} : c.isUpper = true ↔ 65 ≤ c.toNat ∧ c.toNat ≤ 90 := by
  simp [Char.isUpper, Char.toNat, UInt32.le_def, BitVec.le_def, ge_iff_le, UInt32.toNat]

theorem isLower_iff {c : Char} : c.isLower = true ↔ 97 ≤ c.toNat ∧ c.toNat ≤ 122 := by
  simp [Char.isLower, Char.toNat, UInt32.le_def, BitVec.le_def, ge_iff_le, UInt32.toNat]

theorem isAlpha_iff {c : Char} :
    c.isAlpha = true ↔ (65 ≤ c.toNat ∧ c.toNat ≤ 90) ∨ (97 ≤ c.toNat ∧ c.toNat ≤ 122) := by
  simp [Char.isAlpha, isUpper_iff, isLower_iff]

theorem isDigit_iff {c : Char} : c.isDigit = true ↔ 48 ≤ c.toNat ∧ c.toNat ≤ 57 := by
  simp [Char.isDigit, Char.toNat, UInt32.le_def, BitVec.le_def, ge_iff_le, UInt32.toNat]

theorem isWS_iff {c : Char} :
    isWS c = true ↔
      c.toNat = 32 ∨ c.toNat = 9 ∨ c.toNat = 10 ∨ c.toNat = 13 ∨ c.toNat = 11 ∨ c.toNat = 12 := by
  have h32 : (' ' : Char).toNat = 32 := rfl
  have h9 : ('\t' : Char).toNat = 9 := rfl
  have h10 : ('\n' : Char).toNat = 10 := rfl
  have h13 : ('\r' : Char).toNat = 13 := rfl
  have h11 : ('\x0b' : Char).toNat = 11 := rfl
  have h12 : ('\x0c' : Char).toNat = 12 := rfl
  simp [isWS, chEq_iff, h32, h9, h10, h13, h11, h12, or_assoc]

theorem toLower_toLower (c : Char) : Char.toLower (Char.toLower c) = Char.toLower c := by
  rw [chEq_iff, toNat_toLower, toNat_toLower]
  split_ifs <;> omega

theorem toUpper_toUpper (c : Char) : Char.toUpper (Char.toUpper c) = Char.toUpper c := by
  rw [chEq_iff, toNat_toUpper, toNat_toUpper]
  split_ifs <;> omega

theorem isAlpha_toLower (c : Char) : (Char.toLower c).isAlpha = c.isAlpha := by
  rw [Bool.eq_iff_iff, isAlpha_iff, isAlpha_iff, toNat_toLower]
  split_ifs <;> omega

theorem isAlpha_toUpper (c : Char) : (Char.toUpper c).isAlpha = c.isAlpha := by
  rw [Bool.eq_iff_iff, isAlpha_iff, isAlpha_iff, toNat_toUpper]
  split_ifs <;> omega

theorem isWS_toLower (c : Char) : isWS (Char.toLower c) = isWS c := by
  rw [Bool.eq_iff_iff, isWS_iff, isWS_iff, toNat_toLower]
  split_ifs <;> omega

theorem isWS_toUpper (c : Char) : isWS (Char.toUpper c) = isWS c := by
  rw [Bool.eq_iff_iff, isWS_iff, isWS_iff, toNat_toUpper]
  split_ifs <;> omega

theorem isWS_titleChar (f : Bool) (c : Char) : isWS (titleChar f c) = isWS c := by
  rw [titleChar]
  split_ifs <;> simp [isWS_toLower, isWS_toUpper]

theorem isAlpha_titleChar (f : Bool) (c : Char) : (titleChar f c).isAlpha = c.isAlpha := by
  rw [titleChar]
  split_ifs <;> simp [isAlpha_toLower, isAlpha_toUpper]

theorem titleChar_idem (f : Bool) (c : Char) : titleChar f (titleChar f c) = titleChar f c := by
  rw [titleChar, titleChar]
  by_cases hA : c.isAlpha = true
  · cases f with
    | true => simp [hA, isAlpha_toLower, titleChar, toLower_toLower]
    | false => simp [hA, isAlpha_toUpper, titleChar, toUpper_toUpper]
  · simp [hA, titleChar, Bool.eq_false_iff.mpr hA]

theorem not_isAlpha_of_isWS {c : Char} (h : isWS c = true) : c.isAlpha = false := by
  rw [isWS_iff] at h
  cases hA : c.isAlpha with
  | false => rfl
  | true =>
    rw [isAlpha_iff] at hA
    omega

theorem isWS_toLower_false {c : Char} (h : isWS c = false) : isWS (Char.toLower c) = false := by
  rw [isWS_toLower]
  exact h

/-! ## Whitespace normalisation theory -/

theorem strExt {a b : String} (h : a.data = b.data) : a = b := by
  cases a
  cases b
  exact congrArg String.mk h

def headNotWS (l : List Char) : Prop := ∀ c, l.head? = some c → isWS c = false

def lastNotWS (l : List Char) : Prop := ∀ c, l.getLast? = some c → isWS c = false

theorem collapseAux_cons_ws_true {c : Char} (hw : isWS c = true) (cs : List Char) :
    collapseAux true (c :: cs) = collapseAux true cs := by
  rw [collapseAux, if_pos hw, if_pos rfl]

theorem collapseAux_cons_ws_false {c : Char} (hw : isWS c = true) (cs : List Char) :
    collapseAux false (c :: cs) = ' ' :: collapseAux true cs := by
  rw [collapseAux, if_pos hw, if_neg Bool.false_ne_true]

theorem collapseAux_cons_not_ws {c : Char} (hw : isWS c = false) (cs : List Char) (b : Bool) :
    collapseAux b (c :: cs) = c :: collapseAux false cs := by
  rw [collapseAux, if_neg (by rw [hw]; exact Bool.false_ne_true)]

theorem dropLeadWS_eq_self {l : List Char} (h : headNotWS l) : dropLeadWS l = l := by
  cases l with
  | nil => rfl
  | cons c cs => simp [dropLeadWS, List.dropWhile_cons, h c rfl]

theorem headNotWS_dropLeadWS (l : List Char) : headNotWS (dropLeadWS l) := by
  induction l with
  | nil => intro c hc; simp [dropLeadWS] at hc
  | cons c cs ih =>
    by_cases hw : isWS c = true
    · simpa [dropLeadWS, List.dropWhile_cons, hw] using ih
    · intro d hd
      simp [dropLeadWS, List.dropWhile_cons, hw] at hd
      rw [← hd]
      exact Bool.eq_false_iff.mpr hw

theorem dropTrailWS_eq_self {l : List Char} (h : lastNotWS l) : dropTrailWS l = l := by
  induction l with
  | nil => rfl
  | cons c cs ih =>
    cases cs with
    | nil =>
      have hc := h c rfl
      have hneg : ¬(isWS c = true ∧ dropTrailWS ([] : List Char) = []) := by
        intro hand
        rw [hc] at hand
        exact Bool.false_ne_true hand.1
      rw [dropTrailWS, if_neg hneg]
      rfl
    | cons d ds =>
      have h2 : lastNotWS (d :: ds) := by
        intro x hx
        exact h x (by rw [List.getLast?_cons_cons]; exact hx)
      have ih2 := ih h2
      have hneg : ¬(isWS c = true ∧ dropTrailWS (d :: ds) = []) := by
        intro hand
        rw [ih2] at hand
        exact List.cons_ne_nil d ds hand.2
      rw [dropTrailWS, if_neg hneg, ih2]

theorem lastNotWS_dropTrailWS (l : List Char) : lastNotWS (dropTrailWS l) := by
  induction l with
  | nil => intro c hc; simp [dropTrailWS] at hc
  | cons c cs ih =>
    rw [dropTrailWS]
    by_cases hand : isWS c = true ∧ dropTrailWS cs = []
    · rw [if_pos hand]
      intro x hx
      simp at hx
    · rw [if_neg hand]
      intro x hx
      cases he : dropTrailWS cs with
      | nil =>
        rw [he] at hx
        simp at hx
        subst hx
        cases hw : isWS c with
        | false => rfl
        | true => exact absurd ⟨hw, he⟩ hand
      | cons y ys =>
        rw [he, List.getLast?_cons_cons] at hx
        exact ih x (by rw [he]; exact hx)

theorem headNotWS_dropTrailWS {l : List Char} (h : headNotWS l) : headNotWS (dropTrailWS l) := by
  cases l with
  | nil => exact h
  | cons c cs =>
    rw [dropTrailWS]
    by_cases hand : isWS c = true ∧ dropTrailWS cs = []
    · rw [if_pos hand]
      intro x hx
      simp at hx
    · rw [if_neg hand]
      intro x hx
      simp at hx
      rw [← hx]
      exact h c rfl

theorem headNotWS_stripL (l : List Char) : headNotWS (stripL l) :=
  headNotWS_dropTrailWS (headNotWS_dropLeadWS l)

theorem lastNotWS_stripL (l : List Char) : lastNotWS (stripL l) :=
  lastNotWS_dropTrailWS (dropLeadWS l)

theorem stripL_eq_self {l : List Char} (h1 : headNotWS l) (h2 : lastNotWS l) : stripL l = l := by
  rw [stripL, dropLeadWS_eq_self h1, dropTrailWS_eq_self h2]

theorem mem_collapseAux {c : Char} :
    ∀ (l : List Char) (b : Bool), c ∈ collapseAux b l → c = ' ' ∨ (c ∈ l ∧ isWS c = false) := by
  intro l
  induction l with
  | nil => intro b hc; simp [collapseAux] at hc
  | cons d ds ih =>
    intro b hc
    by_cases hw : isWS d = true
    · cases b with
      | true =>
        rw [collapseAux_cons_ws_true hw] at hc
        rcases ih true hc with h | h
        · exact Or.inl h
        · exact Or.inr ⟨List.mem_cons_of_mem d h.1, h.2⟩
      | false =>
        rw [collapseAux_cons_ws_false hw] at hc
        rcases List.mem_cons.mp hc with h | h
        · exact Or.inl h
        · rcases ih true h with h2 | h2
          · exact Or.inl h2
          · exact Or.inr ⟨List.mem_cons_of_mem d h2.1, h2.2⟩
    · rw [collapseAux_cons_not_ws (Bool.eq_false_iff.mpr hw) ds b] at hc
      rcases List.mem_cons.mp hc with h | h
      · exact Or.inr ⟨by rw [h]; exact List.mem_cons_self d ds, by rw [h]; exact Bool.eq_false_iff.mpr hw⟩
      · rcases ih false h with h2 | h2
        · exact Or.inl h2
        · exact Or.inr ⟨List.mem_cons_of_mem d h2.1, h2.2⟩

theorem collapseAux_idem :
    ∀ (l : List Char) (b : Bool), collapseAux b (collapseAux b l) = collapseAux b l := by
  intro l
  induction l with
  | nil => intro b; rfl
  | cons c cs ih =>
    intro b
    by_cases hw : isWS c = true
    · cases b with
      | true => rw [collapseAux_cons_ws_true hw, ih true]
      | false =>
        rw [collapseAux_cons_ws_false hw, collapseAux_cons_ws_false (show isWS ' ' = true from rfl),
          ih true]
    · rw [collapseAux_cons_not_ws (Bool.eq_false_iff.mpr hw) cs b,
        collapseAux_cons_not_ws (Bool.eq_false_iff.mpr hw), ih false]

theorem collapseAux_ne_nil {l : List Char} {x : Char} (hx : x ∈ l) (hxw : isWS x = false) :
    ∀ b, collapseAux b l ≠ [] := by
  induction l with
  | nil => cases hx
  | cons c cs ih =>
    intro b
    by_cases hw : isWS c = true
    · have hx2 : x ∈ cs := by
        rcases List.mem_cons.mp hx with h | h
        · rw [h] at hxw; rw [hw] at hxw; cases hxw
        · exact h
      cases b with
      | true =>
        rw [collapseAux_cons_ws_true hw]
        exact ih hx2 true
      | false =>
        rw [collapseAux_cons_ws_false hw]
        exact List.cons_ne_nil _ _
    · rw [collapseAux_cons_not_ws (Bool.eq_false_iff.mpr hw)]
      exact List.cons_ne_nil _ _

theorem headNotWS_collapseL {l : List Char} (h : headNotWS l) : headNotWS (collapseL l) := by
  cases l with
  | nil => exact h
  | cons c cs =>
    have hc := h c rfl
    rw [collapseL, collapseAux_cons_not_ws hc]
    intro x hx
    simp at hx
    rw [← hx]
    exact hc

theorem lastNotWS_collapseAux {l : List Char} (h : lastNotWS l) :
    ∀ b, lastNotWS (collapseAux b l) := by
  induction l with
  | nil => intro b x hx; simp [collapseAux] at hx
  | cons c cs ih =>
    intro b
    cases cs with
    | nil =>
      have hc := h c rfl
      rw [collapseAux_cons_not_ws hc]
      intro x hx
      simp [collapseAux] at hx
      rw [← hx]
      exact hc
    | cons d ds =>
      have h2 : lastNotWS (d :: ds) := by
        intro x hx
        exact h x (by rw [List.getLast?_cons_cons]; exact hx)
      have hy : ∃ y, (d :: ds).getLast? = some y :=
        ⟨(d :: ds).getLast (List.cons_ne_nil d ds), List.getLast?_eq_getLast _ _⟩
      rcases hy with ⟨y, hy⟩
      have hyw : isWS y = false := h2 y hy
      have hymem : y ∈ d :: ds := List.mem_of_mem_getLast? (by rw [hy]; exact rfl)
      have hne : ∀ b2, collapseAux b2 (d :: ds) ≠ [] := collapseAux_ne_nil hymem hyw
      by_cases hw : isWS c = true
      · cases b with
        | true =>
          rw [collapseAux_cons_ws_true hw]
          exact ih h2 true
        | false =>
          rw [collapseAux_cons_ws_false hw]
          intro x hx
          rcases List.exists_cons_of_ne_nil (hne true) with ⟨z, zs, hz⟩
          rw [hz, List.getLast?_cons_cons, ← hz] at hx
          exact ih h2 true x hx
      · rw [collapseAux_cons_not_ws (Bool.eq_false_iff.mpr hw)]
        intro x hx
        rcases List.exists_cons_of_ne_nil (hne false) with ⟨z, zs, hz⟩
        rw [hz, List.getLast?_cons_cons, ← hz] at hx
        exact ih h2 false x hx

theorem collapseAux_eq_self_of_noWS {l : List Char} (h : ∀ c ∈ l, isWS c = false) :
    ∀ b, collapseAux b l = l := by
  induction l with
  | nil => intro b; rfl
  | cons c cs ih =>
    intro b
    rw [collapseAux_cons_not_ws (h c (List.mem_cons_self c cs)),
      ih (fun x hx => h x (List.mem_cons_of_mem c hx)) false]

theorem replaceTabL_eq_self {l : List Char} (h : ¬ '\t' ∈ l) : replaceTabL l = l := by
  induction l with
  | nil => rfl
  | cons c cs ih =>
    rw [replaceTabL, List.map_cons]
    have hc : ¬c = '\t' := fun he => h (he ▸ List.mem_cons_self c cs)
    rw [if_neg hc]
    have ih2 := ih (fun hm => h (List.mem_cons_of_mem c hm))
    rw [replaceTabL] at ih2
    rw [ih2]

theorem replaceTab_collapseAux (l : List Char) (b : Bool) :
    replaceTabL (collapseAux b l) = collapseAux b l := by
  apply replaceTabL_eq_self
  intro hc
  rcases mem_collapseAux _ _ hc with h | h
  · cases h
  · rw [show isWS '\t' = true from rfl] at h
    cases h.2

theorem wsStr_data (v : String) : (wsStr v).data = collapseL (stripL v.data) := by
  rw [wsStr]
  exact replaceTab_collapseAux _ _

theorem wsStr_idem (v : String) : wsStr (wsStr v) = wsStr v := by
  apply strExt
  rw [wsStr_data, wsStr_data]
  have hstrip : stripL (collapseL (stripL v.data)) = collapseL (stripL v.data) :=
    stripL_eq_self (headNotWS_collapseL (headNotWS_stripL _))
      (lastNotWS_collapseAux (lastNotWS_stripL _) false)
  rw [hstrip, collapseL, collapseL, collapseAux_idem]

theorem wsStr_eq_self_of_noWS {v : String} (h : ∀ c ∈ v.data, isWS c = false) : wsStr v = v := by
  apply strExt
  rw [wsStr_data]
  have h1 : headNotWS v.data := by
    intro c hc
    exact h c (List.mem_of_mem_head? (by rw [hc]; exact rfl))
  have h2 : lastNotWS v.data := by
    intro c hc
    exact h c (List.mem_of_mem_getLast? (by rw [hc]; exact rfl))
  rw [stripL_eq_self h1 h2, collapseL, collapseAux_eq_self_of_noWS h]

theorem stripStr_wsStr (v : String) : stripStr (wsStr v) = wsStr v := by
  apply strExt
  rw [stripStr, wsStr_data]
  exact stripL_eq_self (headNotWS_collapseL (headNotWS_stripL _))
    (lastNotWS_collapseAux (lastNotWS_stripL _) false)

theorem stripStr_eq_self_of_noWS {v : String} (h : ∀ c ∈ v.data, isWS c = false) :
    stripStr v = v := by
  apply strExt
  rw [stripStr]
  have h1 : headNotWS v.data := by
    intro c hc
    exact h c (List.mem_of_mem_head? (by rw [hc]; exact rfl))
  have h2 : lastNotWS v.data := by
    intro c hc
    exact h c (List.mem_of_mem_getLast? (by rw [hc]; exact rfl))
  exact stripL_eq_self h1 h2

/-! ## Title-casing theory -/

theorem titleAux_idem (l : List Char) : ∀ f, titleAux f (titleAux f l) = titleAux f l := by
  induction l with
  | nil => intro f; rfl
  | cons c cs ih =>
    intro f
    rw [titleAux, titleAux, titleChar_idem, isAlpha_titleChar]
    rw [ih c.isAlpha]

theorem titleStr_idem (v : String) : titleStr (titleStr v) = titleStr v := by
  apply strExt
  rw [titleStr, titleStr]
  exact titleAux_idem v.data false

theorem titleChar_of_ws {c : Char} (hw : isWS c = true) (f : Bool) : titleChar f c = c := by
  rw [titleChar, if_neg]
  rw [not_isAlpha_of_isWS hw]
  exact Bool.false_ne_true

theorem mem_titleAux_ws {c : Char} :
    ∀ (l : List Char) (f : Bool), c ∈ titleAux f l → isWS c = true → c ∈ l := by
  intro l
  induction l with
  | nil => intro f hc _; cases hc
  | cons d ds ih =>
    intro f hc hw
    rw [titleAux] at hc
    rcases List.mem_cons.mp hc with h | h
    · have hdw : isWS d = true := by rw [← isWS_titleChar f d, ← h, hw]
      rw [h, titleChar_of_ws hdw]
      exact List.mem_cons_self d ds
    · exact List.mem_cons_of_mem d (ih d.isAlpha h hw)

theorem headNotWS_titleAux {l : List Char} (h : headNotWS l) (f : Bool) :
    headNotWS (titleAux f l) := by
  cases l with
  | nil => exact h
  | cons c cs =>
    intro x hx
    rw [titleAux] at hx
    simp at hx
    rw [← hx, isWS_titleChar]
    exact h c rfl

theorem lastNotWS_titleAux {l : List Char} (h : lastNotWS l) : ∀ f, lastNotWS (titleAux f l) := by
  induction l with
  | nil => intro f x hx; cases hx
  | cons c cs ih =>
    intro f
    cases cs with
    | nil =>
      intro x hx
      simp [titleAux] at hx
      rw [← hx, isWS_titleChar]
      exact h c rfl
    | cons d ds =>
      have h2 : lastNotWS (d :: ds) := by
        intro x hx
        exact h x (by rw [List.getLast?_cons_cons]; exact hx)
      intro x hx
      rw [titleAux, titleAux, List.getLast?_cons_cons, ← titleAux] at hx
      exact ih h2 c.isAlpha x hx

theorem collapse_title_comm :
    ∀ (l : List Char) (b f : Bool), (b = true → f = false) →
      collapseAux b (titleAux f l) = titleAux f (collapseAux b l) := by
  intro l
  induction l with
  | nil => intro b f _; rfl
  | cons c cs ih =>
    intro b f hbf
    by_cases hw : isWS c = true
    · have hca : titleChar f c = c := titleChar_of_ws hw f
      have hfl : c.isAlpha = false := not_isAlpha_of_isWS hw
      cases b with
      | true =>
        have hf : f = false := hbf rfl
        subst hf
        rw [titleAux, hca, hfl, collapseAux_cons_ws_true hw, collapseAux_cons_ws_true hw]
        exact ih true false (fun _ => rfl)
      | false =>
        rw [titleAux, hca, hfl, collapseAux_cons_ws_false hw, collapseAux_cons_ws_false hw]
        rw [titleAux]
        have hsp : titleChar f ' ' = ' ' := titleChar_of_ws (show isWS ' ' = true from rfl) f
        rw [hsp]
        have hspa : (' ' : Char).isAlpha = false := rfl
        rw [hspa]
        rw [ih true false (fun _ => rfl)]
    · have hwf : isWS c = false := Bool.eq_false_iff.mpr hw
      have htw : isWS (titleChar f c) = false := by rw [isWS_titleChar]; exact hwf
      rw [titleAux, collapseAux_cons_not_ws htw, collapseAux_cons_not_ws hwf, titleAux]
      rw [ih false c.isAlpha (fun h => by cases h)]

theorem wsStr_titleStr_wsStr (v : String) : wsStr (titleStr (wsStr v)) = titleStr (wsStr v) := by
  apply strExt
  rw [wsStr_data, titleStr, wsStr_data]
  have hu1 : headNotWS (collapseL (stripL v.data)) := headNotWS_collapseL (headNotWS_stripL _)
  have hu2 : lastNotWS (collapseL (stripL v.data)) := lastNotWS_collapseAux (lastNotWS_stripL _) false
  have hstrip : stripL (titleAux false (collapseL (stripL v.data))) =
      titleAux false (collapseL (stripL v.data)) :=
    stripL_eq_self (headNotWS_titleAux hu1 false) (lastNotWS_titleAux hu2 false)
  rw [hstrip]
  simp only [collapseL]
  rw [collapse_title_comm _ false false (fun h => by cases h), collapseAux_idem]

theorem lowerStr_idem (v : String) : lowerStr (lowerStr v) = lowerStr v := by
  apply strExt
  simp only [lowerStr, List.map_map]
  exact List.map_congr_left (fun c _ => by simp [Function.comp, toLower_toLower])

theorem newline_not_mem_wsStr (v : String) : ¬ '\n' ∈ (wsStr v).data := by
  rw [wsStr_data, collapseL]
  intro hc
  rcases mem_collapseAux _ _ hc with h | h
  · cases h
  · rw [show isWS '\n' = true from rfl] at h
    cases h.2

theorem newline_not_mem_lowerStr {v : String} (h : ¬ '\n' ∈ v.data) :
    ¬ '\n' ∈ (lowerStr v).data := by
  rw [lowerStr]
  intro hc
  rcases List.mem_map.mp hc with ⟨c, hcm, hce⟩
  have h10 : (Char.toLower c).toNat = 10 := by rw [hce]; rfl
  rw [toNat_toLower] at h10
  by_cases hr : 65 ≤ c.toNat ∧ c.toNat ≤ 90
  · rw [if_pos hr] at h10
    omega
  · rw [if_neg hr] at h10
    have : c = '\n' := chEq_iff.mpr (by rw [h10]; rfl)
    rw [this] at hcm
    exact h hcm

/-! ## Deduplication theory -/

theorem dedupAux_sublist : ∀ (l seen : List Row), List.Sublist (dedupAux seen l) l := by
  intro l
  induction l with
  | nil => intro seen; exact List.Sublist.refl []
  | cons r rs ih =>
    intro seen
    rw [dedupAux]
    by_cases hr : r ∈ seen
    · rw [if_pos hr]
      exact List.Sublist.cons r (ih seen)
    · rw [if_neg hr]
      exact List.Sublist.cons₂ r (ih (r :: seen))

theorem mem_dedupAux (a : Row) : ∀ (l seen : List Row), a ∈ dedupAux seen l ↔ a ∈ l ∧ ¬a ∈ seen := by
  intro l
  induction l with
  | nil => intro seen; simp [dedupAux]
  | cons r rs ih =>
    intro seen
    rw [dedupAux]
    by_cases hr : r ∈ seen
    · rw [if_pos hr, ih]
      simp only [List.mem_cons]
      constructor
      · intro h
        exact ⟨Or.inr h.1, h.2⟩
      · rintro ⟨h1 | h1, h2⟩
        · subst h1
          exact absurd hr h2
        · exact ⟨h1, h2⟩
    · rw [if_neg hr]
      simp only [List.mem_cons, ih (r :: seen), List.mem_cons]
      constructor
      · rintro (h | ⟨h1, h2⟩)
        · subst h
          exact ⟨Or.inl rfl, hr⟩
        · exact ⟨Or.inr h1, fun hs => h2 (Or.inr hs)⟩
      · rintro ⟨h1 | h1, h2⟩
        · exact Or.inl h1
        · by_cases har : a = r
          · exact Or.inl har
          · exact Or.inr ⟨h1, fun hs => hs.elim har h2⟩

theorem nodup_dedupAux : ∀ (l seen : List Row), (dedupAux seen l).Nodup := by
  intro l
  induction l with
  | nil => intro seen; exact List.nodup_nil
  | cons r rs ih =>
    intro seen
    rw [dedupAux]
    by_cases hr : r ∈ seen
    · rw [if_pos hr]
      exact ih seen
    · rw [if_neg hr]
      refine List.Nodup.cons ?_ (ih (r :: seen))
      intro hmem
      exact ((mem_dedupAux r rs (r :: seen)).mp hmem).2 (List.mem_cons_self r seen)

theorem dedupAux_eq_self : ∀ (l seen : List Row), l.Nodup → (∀ a ∈ l, ¬a ∈ seen) →
    dedupAux seen l = l := by
  intro l
  induction l with
  | nil => intro seen _ _; rfl
  | cons r rs ih =>
    intro seen hnd hdis
    rw [dedupAux, if_neg (hdis r (List.mem_cons_self r rs))]
    rw [ih (r :: seen) (List.Nodup.of_cons hnd)]
    intro a ha hmem
    rcases List.mem_cons.mp hmem with he | hs
    · subst he
      exact (List.nodup_cons.mp hnd).1 ha
    · exact hdis a (List.mem_cons_of_mem r ha) hs

theorem dedupFirst_eq_self_iff (t : Table) : dedupFirst t = t ↔ t.Nodup := by
  constructor
  · intro h
    rw [← h]
    exact nodup_dedupAux t []
  · intro h
    exact dedupAux_eq_self t [] h (fun a _ hc => (List.not_mem_nil a) hc)

theorem dedupAux_congr : ∀ (l s1 s2 : List Row), (∀ x, x ∈ s1 ↔ x ∈ s2) →
    dedupAux s1 l = dedupAux s2 l := by
  intro l
  induction l with
  | nil => intro s1 s2 _; rfl
  | cons r rs ih =>
    intro s1 s2 hiff
    rw [dedupAux, dedupAux]
    by_cases hr : r ∈ s1
    · rw [if_pos hr, if_pos ((hiff r).mp hr), ih s1 s2 hiff]
    · rw [if_neg hr, if_neg (fun hc => hr ((hiff r).mpr hc))]
      rw [ih (r :: s1) (r :: s2) (fun x => by simp only [List.mem_cons, hiff x])]

theorem dedupAux_cons_seen (a : Row) : ∀ (l seen : List Row),
    dedupAux (a :: seen) l = dedupAux seen (l.filter (· != a)) := by
  intro l
  induction l with
  | nil => intro seen; rfl
  | cons c cs ih =>
    intro seen
    by_cases hca : c = a
    · subst hca
      rw [dedupAux, if_pos (List.mem_cons_self c seen)]
      rw [List.filter_cons, if_neg (by simp)]
      exact ih seen
    · have hfil : List.filter (fun x => x != a) (c :: cs) =
          c :: List.filter (fun x => x != a) cs := by
        rw [List.filter_cons, if_pos (by simp [hca])]
      rw [hfil, dedupAux, dedupAux]
      by_cases hcs : c ∈ seen
      · rw [if_pos (List.mem_cons_of_mem a hcs), if_pos hcs]
        exact ih seen
      · rw [if_neg (fun hc => (List.mem_cons.mp hc).elim hca hcs), if_neg hcs]
        rw [dedupAux_congr cs (c :: a :: seen) (a :: c :: seen) (fun x => by
          simp only [List.mem_cons]
          tauto)]
        rw [ih (c :: seen)]

theorem dedupFirst_cons (r : Row) (rs : Table) :
    dedupFirst (r :: rs) = r :: dedupFirst (rs.filter (· != r)) := by
  rw [dedupFirst, dedupAux, if_neg (List.not_mem_nil r), dedupAux_cons_seen]
  rfl

/-! ## Counting -/

theorem countP_sub {α : Type} (p q : α → Bool) (himp : ∀ r, q r = true → p r = true) :
    ∀ t : List α, t.countP p - t.countP q = t.countP (fun r => p r && !q r) := by
  intro t
  induction t with
  | nil => rfl
  | cons r rs ih =>
    have hle : rs.countP q ≤ rs.countP p := List.countP_mono_left (fun x _ => himp x)
    rw [List.countP_cons, List.countP_cons, List.countP_cons]
    cases hp : p r with
    | false =>
      cases hq : q r with
      | false => simp only [hp, hq, Bool.false_and]; simp; omega
      | true =>
        rw [himp r hq] at hp
        cases hp
    | true =>
      cases hq : q r with
      | false => simp only [hp, hq, Bool.not_false, Bool.and_true]; simp; omega
      | true => simp only [hp, hq, Bool.not_true, Bool.and_false]; simp; omega

/-! ## Lookup-table facts -/

theorem lookup_val_mem {m : List (String × String)} {k v : String}
    (h : m.lookup k = some v) : ∃ p ∈ m, p.2 = v := by
  induction m with
  | nil => cases h
  | cons p ps ih =>
    rw [List.lookup] at h
    cases hk : k == p.1 with
    | true =>
      rw [hk] at h
      exact ⟨p, List.mem_cons_self p ps, Option.some_injective _ h⟩
    | false =>
      rw [hk] at h
      rcases ih h with ⟨q, hq, hqv⟩
      exact ⟨q, List.mem_cons_of_mem p hq, hqv⟩

theorem replaceVal_idem (m : List (String × String))
    (hvals : ∀ p ∈ m, m.lookup p.2 = none) (v : Val) :
    replaceVal m (replaceVal m v) = replaceVal m v := by
  cases v with
  | s t =>
    rw [replaceVal]
    cases hl : m.lookup t with
    | none =>
      rw [replaceVal]
      simp [hl]
    | some y =>
      rcases lookup_val_mem hl with ⟨p, hp, hpv⟩
      have hy : m.lookup y = none := by
        rw [← hpv]
        exact hvals p hp
      rw [replaceVal]
      simp [hy]
  | absent => rfl
  | q x => rfl
  | n x => rfl

theorem status_mapping_vals : ∀ p ∈ status_mapping, status_mapping.lookup p.2 = none := by
  decide

theorem category_mapping_vals : ∀ p ∈ category_mapping, category_mapping.lookup p.2 = none := by
  decide

/-! ## Character classes are whitespace-free -/

theorem localChar_iff {c : Char} :
    localChar c = true ↔
      (65 ≤ c.toNat ∧ c.toNat ≤ 90) ∨ (97 ≤ c.toNat ∧ c.toNat ≤ 122) ∨
        (48 ≤ c.toNat ∧ c.toNat ≤ 57) ∨ c.toNat = 46 ∨ c.toNat = 95 ∨ c.toNat = 37 ∨
        c.toNat = 43 ∨ c.toNat = 45 := by
  have h46 : ('.' : Char).toNat = 46 := rfl
  have h95 : ('_' : Char).toNat = 95 := rfl
  have h37 : ('%' : Char).toNat = 37 := rfl
  have h43 : ('+' : Char).toNat = 43 := rfl
  have h45 : ('-' : Char).toNat = 45 := rfl
  simp [localChar, chEq_iff, isAlpha_iff, isDigit_iff, h46, h95, h37, h43, h45, or_assoc]

theorem domChar_iff {c : Char} :
    domChar c = true ↔
      (65 ≤ c.toNat ∧ c.toNat ≤ 90) ∨ (97 ≤ c.toNat ∧ c.toNat ≤ 122) ∨
        (48 ≤ c.toNat ∧ c.toNat ≤ 57) ∨ c.toNat = 46 ∨ c.toNat = 45 := by
  have h46 : ('.' : Char).toNat = 46 := rfl
  have h45 : ('-' : Char).toNat = 45 := rfl
  simp [domChar, chEq_iff, isAlpha_iff, isDigit_iff, h46, h45, or_assoc]

theorem localChar_noWS {c : Char} (h : localChar c = true) : isWS c = false := by
  rw [localChar_iff] at h
  cases hw : isWS c with
  | false => rfl
  | true => rw [isWS_iff] at hw; omega

theorem domChar_noWS {c : Char} (h : domChar c = true) : isWS c = false := by
  rw [domChar_iff] at h
  cases hw : isWS c with
  | false => rfl
  | true => rw [isWS_iff] at hw; omega

theorem alpha_noWS {c : Char} (h : c.isAlpha = true) : isWS c = false := by
  rw [isAlpha_iff] at h
  cases hw : isWS c with
  | false => rfl
  | true => rw [isWS_iff] at hw; omega

theorem digit_noWS {c : Char} (h : c.isDigit = true) : isWS c = false := by
  rw [isDigit_iff] at h
  cases hw : isWS c with
  | false => rfl
  | true => rw [isWS_iff] at hw; omega

/-! ## Email matching facts -/

theorem emailDomOK_noWS {cs : List Char} (h : emailDomOK cs = true) :
    ∀ c ∈ cs, isWS c = false := by
  rw [emailDomOK, List.any_eq_true] at h
  rcases h with ⟨i, hir, hi⟩
  rw [List.mem_range] at hir
  simp only [Bool.and_eq_true, decide_eq_true_eq] at hi
  obtain ⟨⟨⟨⟨h1i, hdot⟩, hdom⟩, halpha⟩, _⟩ := hi
  intro c hc
  have hsplit : cs = cs.take i ++ cs.drop i := (List.take_append_drop i cs).symm
  have hdropc : cs.drop i = cs[i] :: cs.drop (i + 1) := List.drop_eq_getElem_cons hir
  rw [hsplit] at hc
  rcases List.mem_append.mp hc with hm | hm
  · exact domChar_noWS (List.all_eq_true.mp hdom c hm)
  · rw [hdropc] at hm
    rcases List.mem_cons.mp hm with he | hm2
    · have : cs.getD i ' ' = cs[i] := by simp [List.getD_eq_getElem?_getD, List.getElem?_eq_getElem hir]
      rw [this] at hdot
      rw [he, hdot]
      rfl
    · exact alpha_noWS (List.all_eq_true.mp halpha c hm2)

theorem emailFull_noWS {v : String} (h : emailFull v = true) : ∀ c ∈ v.data, isWS c = false := by
  rw [emailFull] at h
  split at h
  · rename_i rest heq
    simp only [Bool.and_eq_true] at h
    intro c hc
    have hsplit : v.data = v.data.takeWhile (· != '@') ++ ('@' :: rest) := by
      rw [← heq]
      exact (List.takeWhile_append_dropWhile _ _).symm
    rw [hsplit] at hc
    rcases List.mem_append.mp hc with hm | hm
    · exact localChar_noWS (List.all_eq_true.mp h.1.2 c hm)
    · rcases List.mem_cons.mp hm with he | hm2
      · rw [he]
        rfl
      · exact emailDomOK_noWS h.2 c hm2
  · cases h

theorem emailMatch_of_no_newline {v : String} (h : emailMatch v = true)
    (hn : ¬ '\n' ∈ v.data) : emailFull v = true := by
  rw [emailMatch, Bool.or_eq_true] at h
  rcases h with h | h
  · exact h
  · exfalso
    simp only [Bool.and_eq_true, beq_iff_eq] at h
    exact hn (List.mem_of_mem_getLast? (Option.mem_def.mpr h.1))

theorem emailCell_shape (v : Val) :
    emailCell v = Val.absent ∨
      ∃ l, emailCell v = Val.s l ∧ lowerStr l = l ∧ emailMatch l = true := by
  cases v with
  | absent => exact Or.inl rfl
  | q x => exact Or.inl rfl
  | n x => exact Or.inl rfl
  | s u =>
    by_cases hm : emailMatch (lowerStr u) = true
    · refine Or.inr ⟨lowerStr u, ?_, lowerStr_idem u, hm⟩
      simp [emailCell, emailLower, hm]
    · left
      simp [emailCell, emailLower, hm]

theorem emailCell_fix {l : String} (hlow : lowerStr l = l) (hm : emailMatch l = true) :
    emailCell (Val.s l) = Val.s l := by
  simp [emailCell, emailLower, hlow, hm]

theorem emailCounted_fix {l : String} (hlow : lowerStr l = l) (hm : emailMatch l = true) :
    emailCounted (Val.s l) = false := by
  simp [emailCounted, emailLower, hlow, hm]

/-! ## Phone formatting facts -/

theorem digitsOf_all (v : String) : ∀ c ∈ digitsOf v, c.isDigit = true :=
  fun c hc => (List.mem_filter.mp hc).2

theorem formatDigits_shape (ds0 : List Char) (hall : ∀ c ∈ ds0, c.isDigit = true) :
    formatDigits ds0 = Val.absent ∨
      ∃ ds : List Char, ds.length = 10 ∧ (∀ c ∈ ds, c.isDigit = true) ∧
        formatDigits ds0 =
          Val.s ⟨ds.take 3 ++ '-' :: ((ds.drop 3).take 3 ++ '-' :: ds.drop 6)⟩ := by
  rw [formatDigits]
  by_cases hstrip : ds0.length = 11 ∧ ds0.headD ' ' = '1'
  · rw [if_pos hstrip]
    by_cases h10 : ds0.tail.length = 10
    · rw [if_pos h10]
      exact Or.inr ⟨ds0.tail, h10, fun c hc => hall c (List.mem_of_mem_tail hc), rfl⟩
    · rw [if_neg h10]
      exact Or.inl rfl
  · rw [if_neg hstrip]
    by_cases h10 : ds0.length = 10
    · rw [if_pos h10]
      exact Or.inr ⟨ds0, h10, hall, rfl⟩
    · rw [if_neg h10]
      exact Or.inl rfl

theorem format_phone_shape (v : Val) :
    format_phone v = Val.absent ∨
      ∃ ds : List Char, ds.length = 10 ∧ (∀ c ∈ ds, c.isDigit = true) ∧
        format_phone v =
          Val.s ⟨ds.take 3 ++ '-' :: ((ds.drop 3).take 3 ++ '-' :: ds.drop 6)⟩ := by
  cases v with
  | absent => exact Or.inl rfl
  | s u => exact formatDigits_shape _ (digitsOf_all _)
  | q x => exact formatDigits_shape _ (digitsOf_all _)
  | n k => exact formatDigits_shape _ (digitsOf_all _)

theorem digitsOf_phoneFmt {ds : List Char} (hall : ∀ c ∈ ds, c.isDigit = true) :
    digitsOf ⟨ds.take 3 ++ '-' :: ((ds.drop 3).take 3 ++ '-' :: ds.drop 6)⟩ = ds := by
  rw [digitsOf]
  show List.filter Char.isDigit (ds.take 3 ++ '-' :: ((ds.drop 3).take 3 ++ '-' :: ds.drop 6)) = ds
  rw [List.filter_append, List.filter_cons, if_neg (by decide), List.filter_append,
    List.filter_cons, if_neg (by decide)]
  rw [List.filter_eq_self.mpr (fun c hc => hall c (List.take_subset 3 ds hc)),
    List.filter_eq_self.mpr (fun c hc => hall c (List.drop_subset 3 ds (List.take_subset 3 _ hc))),
    List.filter_eq_self.mpr (fun c hc => hall c (List.drop_subset 6 ds hc))]
  rw [← List.append_assoc]
  have h36 : ds.take 3 ++ (ds.drop 3).take 3 = ds.take 6 := by
    have := List.take_add 3 3 (l := ds)
    rw [this]
  rw [h36, List.take_append_drop]

theorem format_phone_fix {ds : List Char} (h10 : ds.length = 10)
    (hall : ∀ c ∈ ds, c.isDigit = true) :
    format_phone (Val.s ⟨ds.take 3 ++ '-' :: ((ds.drop 3).take 3 ++ '-' :: ds.drop 6)⟩) =
      Val.s ⟨ds.take 3 ++ '-' :: ((ds.drop 3).take 3 ++ '-' :: ds.drop 6)⟩ := by
  show formatDigits (digitsOf (valToStr (Val.s _))) = _
  rw [show valToStr (Val.s ⟨ds.take 3 ++ '-' :: ((ds.drop 3).take 3 ++ '-' :: ds.drop 6)⟩) =
      ⟨ds.take 3 ++ '-' :: ((ds.drop 3).take 3 ++ '-' :: ds.drop 6)⟩ from rfl]
  rw [digitsOf_phoneFmt hall, formatDigits]
  have hne : ¬(ds.length = 11 ∧ ds.headD ' ' = '1') := by
    intro hand
    rw [h10] at hand
    exact absurd hand.1 (by norm_num)
  rw [if_neg hne, if_pos h10]

/-! ## Rounding facts -/

theorem roundHalfEven_intCast (n : ℤ) : roundHalfEven ((n : ℚ)) = n := by
  rw [roundHalfEven]
  simp only [Int.floor_intCast, sub_self]
  rw [if_pos (by norm_num)]

theorem round2_idem (x : ℚ) : round2 (round2 x) = round2 x := by
  rw [round2, round2]
  have hc : ((roundHalfEven (x * 100) : ℚ)) / 100 * 100 = ((roundHalfEven (x * 100) : ℚ)) := by
    field_simp
  rw [hc, roundHalfEven_intCast]

theorem roundHalfEven_nonneg {y : ℚ} (hy : 0 ≤ y) : 0 ≤ roundHalfEven y := by
  rw [roundHalfEven]
  have hf : 0 ≤ Int.floor y := Int.floor_nonneg.mpr hy
  split_ifs <;> omega

theorem round2_nonneg {x : ℚ} (hx : 0 < x) : 0 ≤ round2 x := by
  rw [round2]
  apply div_nonneg _ (by norm_num)
  exact_mod_cast roundHalfEven_nonneg (by positivity)

/-! ## Price and quantity facts -/

theorem parse_price_shape (v : Val) :
    parse_price v = Val.absent ∨ ∃ x : ℚ, 0 < x ∧ parse_price v = Val.q (round2 x) := by
  cases v with
  | absent => exact Or.inl rfl
  | s t =>
    cases hp : pyFloat? (removeChar ',' (removeChar '$' (stripStr t))) with
    | none =>
      left
      simp [parse_price, hp]
    | some x =>
      by_cases hx : x ≤ 0
      · left
        simp [parse_price, hp, hx]
      · right
        exact ⟨x, lt_of_not_le hx, by simp [parse_price, hp, hx]⟩
  | q x =>
    rw [parse_price]
    by_cases hx : x ≤ 0
    · rw [if_pos hx]
      exact Or.inl rfl
    · rw [if_neg hx]
      exact Or.inr ⟨x, lt_of_not_le hx, rfl⟩
  | n k =>
    rw [parse_price]
    by_cases hk : k ≤ 0
    · rw [if_pos hk]
      exact Or.inl rfl
    · rw [if_neg hk]
      refine Or.inr ⟨(k : ℚ), ?_, rfl⟩
      exact_mod_cast lt_of_not_le hk

theorem parse_price_fix {r : ℚ} (h0 : 0 < r) (hfix : round2 r = r) :
    parse_price (Val.q r) = Val.q r := by
  rw [parse_price, if_neg (not_le.mpr h0), hfix]

theorem parse_quantity_shape (v : Val) :
    parse_quantity v = Val.absent ∨ ∃ k : Int, 0 < k ∧ parse_quantity v = Val.n k := by
  cases v with
  | absent => exact Or.inl rfl
  | s t =>
    cases hp : pyFloat? (stripStr t) with
    | none =>
      left
      simp [parse_quantity, hp]
    | some x =>
      by_cases hx : truncInt x ≤ 0
      · left
        simp [parse_quantity, hp, hx]
      · right
        exact ⟨truncInt x, lt_of_not_le hx, by simp [parse_quantity, hp, hx]⟩
  | q x =>
    rw [parse_quantity]
    by_cases hx : truncInt x ≤ 0
    · rw [if_pos hx]
      exact Or.inl rfl
    · rw [if_neg hx]
      exact Or.inr ⟨truncInt x, lt_of_not_le hx, rfl⟩
  | n k =>
    rw [parse_quantity]
    by_cases hk : k ≤ 0
    · rw [if_pos hk]
      exact Or.inl rfl
    · rw [if_neg hk]
      exact Or.inr ⟨k, lt_of_not_le hk, rfl⟩

theorem parse_quantity_fix {k : Int} (h : 0 < k) : parse_quantity (Val.n k) = Val.n k := by
  rw [parse_quantity, if_neg (not_le.mpr h)]

/-! ## Date formatting and re-parsing facts -/

theorem digitChar_toNat {k : Nat} (hk : k ≤ 9) : (digitChar k).toNat = 48 + k :=
  chOfNat_toNat (by omega)

theorem digitChar_isDigit {k : Nat} (hk : k ≤ 9) : (digitChar k).isDigit = true :=
  isDigit_iff.mpr (by rw [digitChar_toNat hk]; omega)

theorem digVal_digitChar {k : Nat} (hk : k ≤ 9) : digVal (digitChar k) = k := by
  rw [digVal, digitChar_toNat hk]
  omega

theorem digitChar_noWS {k : Nat} (hk : k ≤ 9) : isWS (digitChar k) = false :=
  digit_noWS (digitChar_isDigit hk)

theorem digitChar_ne_hyphen {k : Nat} (hk : k ≤ 9) : ¬digitChar k = '-' := by
  intro h
  have := chEq_iff.mp h
  rw [digitChar_toNat hk] at this
  have h45 : ('-' : Char).toNat = 45 := rfl
  omega

theorem digitChar_ne_slash {k : Nat} (hk : k ≤ 9) : ¬digitChar k = '/' := by
  intro h
  have := chEq_iff.mp h
  rw [digitChar_toNat hk] at this
  have h47 : ('/' : Char).toNat = 47 := rfl
  omega

theorem digitChar_eq_lit {k : Nat} (hk : k ≤ 9) (c : Char) :
    digitChar k = c ↔ 48 + k = c.toNat := by
  rw [chEq_iff, digitChar_toNat hk]

theorem monthLen_le_31 (y m : Nat) : monthLen y m ≤ 31 := by
  rw [monthLen]
  split_ifs <;> omega

theorem yearChars_of_ge1000 {y : Nat} (h1 : 1000 ≤ y) (h2 : y ≤ 9999) :
    yearChars y = [digitChar (y / 1000), digitChar (y / 100 % 10), digitChar (y / 10 % 10),
      digitChar (y % 10)] := by
  rw [yearChars, if_neg (by omega), if_neg (by omega), if_neg (by omega), if_pos (by omega)]

theorem yearChars_length_lt {y : Nat} (h : y < 1000) : (yearChars y).length ≤ 3 := by
  rw [yearChars]
  split_ifs <;> simp <;> omega

theorem yearChars_noWS {y : Nat} (h2 : y ≤ 9999) : ∀ c ∈ yearChars y, isWS c = false := by
  rw [yearChars]
  split_ifs with ha hb hc hd
  · intro c hch
    simp only [List.mem_cons, List.not_mem_nil, or_false] at hch
    rw [hch]
    exact digitChar_noWS (by omega)
  · intro c hch
    simp only [List.mem_cons, List.not_mem_nil, or_false] at hch
    rcases hch with h | h
    all_goals (rw [h]; exact digitChar_noWS (by omega))
  · intro c hch
    simp only [List.mem_cons, List.not_mem_nil, or_false] at hch
    rcases hch with h | h | h
    all_goals (rw [h]; exact digitChar_noWS (by omega))
  · intro c hch
    simp only [List.mem_cons, List.not_mem_nil, or_false] at hch
    rcases hch with h | h | h | h
    all_goals (rw [h]; exact digitChar_noWS (by omega))
  · exact absurd h2 (by omega)

theorem fmtDate_data (d : Date) :
    (fmtDate d).data = yearChars d.year ++ '-' :: digitChar (d.month / 10 % 10) ::
      digitChar (d.month % 10) :: '-' :: digitChar (d.day / 10 % 10) ::
      [digitChar (d.day % 10)] := rfl

theorem fmtDate_length (d : Date) :
    (fmtDate d).data.length = (yearChars d.year).length + 6 := by
  rw [fmtDate_data, List.length_append]
  rfl

theorem fmtDate_year_ge_1000 {d : Date} (hlen : (fmtDate d).data.length = 10) :
    1000 ≤ d.year := by
  by_contra hlt
  push_neg at hlt
  have h3 := yearChars_length_lt hlt
  have hl := fmtDate_length d
  omega

theorem fmtDate_noWS {d : Date} (h2 : d.year ≤ 9999) :
    ∀ c ∈ (fmtDate d).data, isWS c = false := by
  intro c hc
  rw [fmtDate_data] at hc
  rcases List.mem_append.mp hc with h | h
  · exact yearChars_noWS h2 c h
  · simp only [List.mem_cons, List.not_mem_nil, or_false] at h
    rcases h with h | h | h | h | h | h
    all_goals first
      | (rw [h]; exact digitChar_noWS (by omega))
      | (rw [h]; rfl)

theorem dayCands_snd (cs : List Char) (p : Nat × List Char) (hp : p ∈ dayCands cs) :
    p.2 = cs.drop 1 ∨ p.2 = cs.drop 2 := by
  cases cs with
  | nil => cases hp
  | cons c1 cs1 =>
    cases cs1 with
    | nil =>
      rw [dayCands] at hp
      by_cases hc : c1.isDigit = true ∧ c1 ≠ '0'
      · rw [if_pos hc] at hp
        rw [List.mem_singleton.mp hp]
        left
        rfl
      · rw [if_neg hc] at hp
        cases hp
    | cons c2 rest =>
      rw [dayCands] at hp
      rcases List.mem_append.mp hp with hm | hm
      · by_cases h2 : (c1 = '3' ∧ (c2 = '0' ∨ c2 = '1')) ∨ ((c1 = '1' ∨ c1 = '2') ∧ c2.isDigit)
            ∨ (c1 = '0' ∧ c2.isDigit ∧ c2 ≠ '0')
        · rw [if_pos h2] at hm
          rw [List.mem_singleton.mp hm]
          right
          rfl
        · rw [if_neg h2] at hm
          cases hm
      · by_cases h1 : c1.isDigit = true ∧ c1 ≠ '0'
        · rw [if_pos h1] at hm
          rw [List.mem_singleton.mp hm]
          left
          rfl
        · rw [if_neg h1] at hm
          cases hm

theorem monthCands_snd (cs : List Char) (p : Nat × List Char) (hp : p ∈ monthCands cs) :
    p.2 = cs.drop 1 ∨ p.2 = cs.drop 2 := by
  cases cs with
  | nil => cases hp
  | cons c1 cs1 =>
    cases cs1 with
    | nil =>
      rw [monthCands] at hp
      by_cases hc : c1.isDigit = true ∧ c1 ≠ '0'
      · rw [if_pos hc] at hp
        rw [List.mem_singleton.mp hp]
        left
        rfl
      · rw [if_neg hc] at hp
        cases hp
    | cons c2 rest =>
      rw [monthCands] at hp
      rcases List.mem_append.mp hp with hm | hm
      · by_cases h2 : (c1 = '1' ∧ (c2 = '0' ∨ c2 = '1' ∨ c2 = '2')) ∨ (c1 = '0' ∧ c2.isDigit ∧ c2 ≠ '0')
        · rw [if_pos h2] at hm
          rw [List.mem_singleton.mp hm]
          right
          rfl
        · rw [if_neg h2] at hm
          cases hm
      · by_cases h1 : c1.isDigit = true ∧ c1 ≠ '0'
        · rw [if_pos h1] at hm
          rw [List.mem_singleton.mp hm]
          left
          rfl
        · rw [if_neg h1] at hm
          cases hm

theorem monthCands_head (m : Nat) (hm1 : 1 ≤ m) (hm2 : m ≤ 12) (rest : List Char) :
    ∃ tl, monthCands (digitChar (m / 10 % 10) :: digitChar (m % 10) :: rest) = (m, rest) :: tl := by
  by_cases hle : m ≤ 9
  · have h10 : m / 10 % 10 = 0 := by omega
    have hmm : m % 10 = m := by omega
    rw [h10, hmm]
    have hch : digitChar 0 = '0' := by decide
    have hne0 : ¬digitChar m = '0' := by
      intro hc
      have := (digitChar_eq_lit (by omega) '0').mp hc
      have h48 : ('0' : Char).toNat = 48 := rfl
      omega
    rw [monthCands, if_pos (Or.inr ⟨hch, digitChar_isDigit (by omega), hne0⟩)]
    rw [if_neg (fun hc => hc.2 hch)]
    refine ⟨[], ?_⟩
    rw [List.append_nil]
    have hv : 10 * digVal (digitChar 0) + digVal (digitChar m) = m := by
      rw [digVal_digitChar (by omega), digVal_digitChar (by omega)]
      omega
    rw [hv]
  · have h1 : m / 10 % 10 = 1 := by omega
    rw [h1]
    have hch1 : digitChar 1 = '1' := by decide
    have hdisj : digitChar (m % 10) = '0' ∨ digitChar (m % 10) = '1' ∨ digitChar (m % 10) = '2' := by
      have hm10 : m % 10 = 0 ∨ m % 10 = 1 ∨ m % 10 = 2 := by omega
      rcases hm10 with h | h | h
      · left; rw [h]; decide
      · right; left; rw [h]; decide
      · right; right; rw [h]; decide
    rw [monthCands, if_pos (Or.inl ⟨hch1, hdisj⟩)]
    have hv : 10 * digVal (digitChar 1) + digVal (digitChar (m % 10)) = m := by
      rw [digVal_digitChar (by omega), digVal_digitChar (by omega)]
      omega
    rw [hv, List.singleton_append]
    exact ⟨_, rfl⟩

theorem dayCands_head (dd : Nat) (hd1 : 1 ≤ dd) (hd2 : dd ≤ 31) (rest : List Char) :
    ∃ tl, dayCands (digitChar (dd / 10 % 10) :: digitChar (dd % 10) :: rest) = (dd, rest) :: tl := by
  by_cases hle : dd ≤ 9
  · have h10 : dd / 10 % 10 = 0 := by omega
    have hmm : dd % 10 = dd := by omega
    rw [h10, hmm]
    have hch : digitChar 0 = '0' := by decide
    have hne0 : ¬digitChar dd = '0' := by
      intro hc
      have := (digitChar_eq_lit (by omega) '0').mp hc
      have h48 : ('0' : Char).toNat = 48 := rfl
      omega
    rw [dayCands, if_pos (Or.inr (Or.inr ⟨hch, digitChar_isDigit (by omega), hne0⟩))]
    rw [if_neg (fun hc => hc.2 hch)]
    refine ⟨[], ?_⟩
    rw [List.append_nil]
    have hv : 10 * digVal (digitChar 0) + digVal (digitChar dd) = dd := by
      rw [digVal_digitChar (by omega), digVal_digitChar (by omega)]
      omega
    rw [hv]
  · by_cases h29 : dd ≤ 29
    · have h1 : dd / 10 % 10 = 1 ∨ dd / 10 % 10 = 2 := by omega
      have hfst : digitChar (dd / 10 % 10) = '1' ∨ digitChar (dd / 10 % 10) = '2' := by
        rcases h1 with h | h
        · left; rw [h]; decide
        · right; rw [h]; decide
      rw [dayCands, if_pos (Or.inr (Or.inl ⟨hfst, digitChar_isDigit (by omega)⟩))]
      have hv : 10 * digVal (digitChar (dd / 10 % 10)) + digVal (digitChar (dd % 10)) = dd := by
        rw [digVal_digitChar (by omega), digVal_digitChar (by omega)]
        omega
      rw [hv, List.cons_append]
      exact ⟨_, rfl⟩
    · have h3 : dd / 10 % 10 = 3 := by omega
      rw [h3]
      have hch3 : digitChar 3 = '3' := by decide
      have hdisj : digitChar (dd % 10) = '0' ∨ digitChar (dd % 10) = '1' := by
        have : dd % 10 = 0 ∨ dd % 10 = 1 := by omega
        rcases this with h | h
        · left; rw [h]; decide
        · right; rw [h]; decide
      rw [dayCands, if_pos (Or.inl ⟨hch3, hdisj⟩)]
      have hv : 10 * digVal (digitChar 3) + digVal (digitChar (dd % 10)) = dd := by
        rw [digVal_digitChar (by omega), digVal_digitChar (by omega)]
        omega
      rw [hv, List.cons_append]
      exact ⟨_, rfl⟩

theorem validDate_bounds {d : Date} (hv : validDate d = true) :
    1 ≤ d.year ∧ d.year ≤ 9999 ∧ 1 ≤ d.month ∧ d.month ≤ 12 ∧ 1 ≤ d.day ∧ d.day ≤ 31 := by
  simp only [validDate, Bool.and_eq_true, decide_eq_true_eq] at hv
  have := monthLen_le_31 d.year d.month
  omega

theorem matchYMD_fmtDate {d : Date} (hv : validDate d = true) (hy : 1000 ≤ d.year) :
    matchYMD (fmtDate d).data = some d := by
  obtain ⟨hy1, hy2, hm1, hm2, hd1, hd2⟩ := validDate_bounds hv
  obtain ⟨y, m, dd⟩ := d
  simp only at hy1 hy2 hm1 hm2 hd1 hd2 hy
  show matchYMD (yearChars y ++ '-' :: digitChar (m / 10 % 10) :: digitChar (m % 10) ::
    '-' :: digitChar (dd / 10 % 10) :: [digitChar (dd % 10)]) = some ⟨y, m, dd⟩
  rw [yearChars_of_ge1000 hy hy2]
  show matchYMD [digitChar (y / 1000), digitChar (y / 100 % 10), digitChar (y / 10 % 10),
    digitChar (y % 10), '-', digitChar (m / 10 % 10), digitChar (m % 10), '-',
    digitChar (dd / 10 % 10), digitChar (dd % 10)] = some ⟨y, m, dd⟩
  have hy4 : year4 [digitChar (y / 1000), digitChar (y / 100 % 10), digitChar (y / 10 % 10),
      digitChar (y % 10), '-', digitChar (m / 10 % 10), digitChar (m % 10), '-',
      digitChar (dd / 10 % 10), digitChar (dd % 10)] =
      some (y, ['-', digitChar (m / 10 % 10), digitChar (m % 10), '-',
        digitChar (dd / 10 % 10), digitChar (dd % 10)]) := by
    rw [year4, if_pos ⟨digitChar_isDigit (by omega), digitChar_isDigit (by omega),
      digitChar_isDigit (by omega), digitChar_isDigit (by omega)⟩]
    have hyv : 1000 * digVal (digitChar (y / 1000)) + 100 * digVal (digitChar (y / 100 % 10)) +
        10 * digVal (digitChar (y / 10 % 10)) + digVal (digitChar (y % 10)) = y := by
      rw [digVal_digitChar (by omega), digVal_digitChar (by omega), digVal_digitChar (by omega),
        digVal_digitChar (by omega)]
      omega
    rw [hyv]
  have hdayfs : (dayCands [digitChar (dd / 10 % 10), digitChar (dd % 10)]).findSome?
      (fun dc => if dc.2 = ([] : List Char) then some (⟨y, m, dc.1⟩ : Date) else none) =
      some ⟨y, m, dd⟩ := by
    rcases dayCands_head dd hd1 hd2 [] with ⟨tl2, htl2⟩
    rw [htl2, List.findSome?_cons_of_isSome]
    · dsimp only
      rw [if_pos rfl]
    · dsimp only
      rw [if_pos rfl]
      exact rfl
  rcases monthCands_head m hm1 hm2 ['-', digitChar (dd / 10 % 10), digitChar (dd % 10)]
    with ⟨tl, htl⟩
  rw [matchYMD, hy4, Option.some_bind, lit, if_pos rfl, Option.some_bind, htl]
  rw [List.findSome?_cons_of_isSome]
  · dsimp only
    rw [lit, if_pos rfl, Option.some_bind]
    exact hdayfs
  · dsimp only
    rw [lit, if_pos rfl, Option.some_bind]
    rw [hdayfs]
    exact rfl

theorem fmtDate_data_of_ge1000 {d : Date} (hy : 1000 ≤ d.year) (hy2 : d.year ≤ 9999) :
    (fmtDate d).data = digitChar (d.year / 1000) :: digitChar (d.year / 100 % 10) ::
      digitChar (d.year / 10 % 10) :: digitChar (d.year % 10) :: '-' ::
      digitChar (d.month / 10 % 10) :: digitChar (d.month % 10) :: '-' ::
      digitChar (d.day / 10 % 10) :: [digitChar (d.day % 10)] := by
  rw [fmtDate_data, yearChars_of_ge1000 hy hy2]
  rfl

theorem matchMDY_fmtDate {d : Date} (hy : 1000 ≤ d.year) (hy2 : d.year ≤ 9999) :
    matchMDY (fmtDate d).data = none := by
  rw [matchMDY, List.findSome?_eq_none_iff]
  intro p hp
  have hsnd := monthCands_snd _ p hp
  rw [fmtDate_data_of_ge1000 hy hy2] at hsnd
  have hlit : lit '/' p.2 = none := by
    rcases hsnd with h | h
    · rw [h]
      show lit '/' (digitChar (d.year / 100 % 10) :: _) = none
      rw [lit, if_neg (digitChar_ne_slash (by omega))]
    · rw [h]
      show lit '/' (digitChar (d.year / 10 % 10) :: _) = none
      rw [lit, if_neg (digitChar_ne_slash (by omega))]
  rw [hlit]
  rfl

theorem matchDMY_fmtDate {d : Date} (hy : 1000 ≤ d.year) (hy2 : d.year ≤ 9999) :
    matchDMY (fmtDate d).data = none := by
  rw [matchDMY, List.findSome?_eq_none_iff]
  intro p hp
  have hsnd := dayCands_snd _ p hp
  rw [fmtDate_data_of_ge1000 hy hy2] at hsnd
  have hlit : lit '-' p.2 = none := by
    rcases hsnd with h | h
    · rw [h]
      show lit '-' (digitChar (d.year / 100 % 10) :: _) = none
      rw [lit, if_neg (digitChar_ne_hyphen (by omega))]
    · rw [h]
      show lit '-' (digitChar (d.year / 10 % 10) :: _) = none
      rw [lit, if_neg (digitChar_ne_hyphen (by omega))]
  rw [hlit]
  rfl

theorem validated_some {m : Option Date} {d : Date} (h : validated m = some d) :
    validDate d = true ∧ m = some d := by
  cases m with
  | none => cases h
  | some x =>
    rw [validated, Option.some_bind] at h
    by_cases hx : validDate x = true
    · rw [if_pos hx] at h
      have := Option.some_injective _ h
      subst this
      exact ⟨hx, rfl⟩
    · rw [if_neg hx] at h
      cases h

theorem tryFormats_fmtDate {d : Date} (hv : validDate d = true) (hy : 1000 ≤ d.year) :
    tryFormats (fmtDate d).data = some d := by
  have hy2 := (validDate_bounds hv).2.1
  rw [tryFormats]
  have h1 : validated (matchMDY (fmtDate d).data) = none := by
    rw [matchMDY_fmtDate hy hy2]
    rfl
  have h2 : validated (matchDMY (fmtDate d).data) = none := by
    rw [matchDMY_fmtDate hy hy2]
    rfl
  have h3 : validated (matchYMD (fmtDate d).data) = some d := by
    rw [matchYMD_fmtDate hv hy, validated, Option.some_bind, if_pos hv]
  rw [h1, h2, h3]
  rfl

theorem tryFormats_valid {cs : List Char} {d : Date} (h : tryFormats cs = some d) :
    validDate d = true := by
  rw [tryFormats] at h
  cases h1 : validated (matchMDY cs) with
  | some x =>
    rw [h1] at h
    have hx := Option.some_injective _ (show some x = some d from h)
    subst hx
    exact (validated_some h1).1
  | none =>
    rw [h1] at h
    simp only [Option.orElse, Option.none_orElse] at h
    cases h2 : validated (matchDMY cs) with
    | some x =>
      rw [h2] at h
      have hx := Option.some_injective _ (show some x = some d from h)
      subst hx
      exact (validated_some h2).1
    | none =>
      rw [h2] at h
      simp only [Option.orElse, Option.none_orElse] at h
      cases h3 : validated (matchYMD cs) with
      | some x =>
        rw [h3] at h
        have hx := Option.some_injective _ (show some x = some d from h)
        subst hx
        exact (validated_some h3).1
      | none =>
        rw [h3] at h
        simp only [Option.orElse, Option.none_orElse] at h
        cases h4 : validated (matchBDY cs) with
        | some x =>
          rw [h4] at h
          have hx := Option.some_injective _ (show some x = some d from h)
          subst hx
          exact (validated_some h4).1
        | none =>
          rw [h4] at h
          simp only [Option.orElse, Option.none_orElse] at h
          exact (validated_some h).1

theorem stripL_eq_self_of_noWS {l : List Char} (h : ∀ c ∈ l, isWS c = false) : stripL l = l := by
  apply stripL_eq_self
  · intro c hc
    exact h c (List.mem_of_mem_head? (by rw [hc]; exact rfl))
  · intro c hc
    exact h c (List.mem_of_mem_getLast? (by rw [hc]; exact rfl))

theorem parse_date_shape (now : Date) (v : Val) :
    parse_date now v = Val.absent ∨
      ∃ d, validDate d = true ∧ dateLt now d = false ∧ parse_date now v = Val.s (fmtDate d) := by
  cases v with
  | absent => exact Or.inl rfl
  | s t =>
    cases ht : tryFormats (stripL (valToStr (Val.s t)).data) with
    | none =>
      left
      simp [parse_date, ht]
    | some d =>
      cases hlt : dateLt now d with
      | true =>
        left
        simp [parse_date, ht, hlt]
      | false =>
        exact Or.inr ⟨d, tryFormats_valid ht, hlt, by simp [parse_date, ht, hlt]⟩
  | q x =>
    cases ht : tryFormats (stripL (valToStr (Val.q x)).data) with
    | none =>
      left
      simp [parse_date, ht]
    | some d =>
      cases hlt : dateLt now d with
      | true =>
        left
        simp [parse_date, ht, hlt]
      | false =>
        exact Or.inr ⟨d, tryFormats_valid ht, hlt, by simp [parse_date, ht, hlt]⟩
  | n k =>
    cases ht : tryFormats (stripL (valToStr (Val.n k)).data) with
    | none =>
      left
      simp [parse_date, ht]
    | some d =>
      cases hlt : dateLt now d with
      | true =>
        left
        simp [parse_date, ht, hlt]
      | false =>
        exact Or.inr ⟨d, tryFormats_valid ht, hlt, by simp [parse_date, ht, hlt]⟩

theorem parse_date_fix {now d : Date} (hv : validDate d = true) (hlt : dateLt now d = false)
    (hy : 1000 ≤ d.year) :
    parse_date now (Val.s (fmtDate d)) = Val.s (fmtDate d) := by
  have hstrip : stripL (fmtDate d).data = (fmtDate d).data :=
    stripL_eq_self_of_noWS (fmtDate_noWS (validDate_bounds hv).2.1)
  have ht : tryFormats (stripL (valToStr (Val.s (fmtDate d))).data) = some d := by
    show tryFormats (stripL (fmtDate d).data) = some d
    rw [hstrip]
    exact tryFormats_fmtDate hv hy
  simp [parse_date, ht, hlt]

/-! ## Pipeline row composition -/

/-- The composition of the per-row transforms of the eight mapping
steps, in pipeline order. -/
def pipeRow (now : Date) (r : Row) : Row :=
  statusRow (catRow (qtyRow (priceRow (dateRow now (phoneRow (emailRow (wsRow r)))))))

theorem pipeline_fst (now : Date) (t : Table) :
    (run_cleaning_pipeline now t).1 = (dedupFirst t).map (pipeRow now) := by
  show (standardize_status (standardize_categories (clean_quantities (clean_prices
    (standardize_dates now (clean_phone_numbers (standardize_emails (clean_whitespace
      (remove_duplicates t).1).1).1).1).1).1).1).1).1 = _
  show ((((((((dedupFirst t).map wsRow).map emailRow).map phoneRow).map (dateRow now)).map
    priceRow).map qtyRow).map catRow).map statusRow = _
  rw [List.map_map, List.map_map, List.map_map, List.map_map, List.map_map, List.map_map,
    List.map_map]
  rfl

theorem pipeRow_customer (now : Date) (r : Row) :
    (pipeRow now r).customer_name = wsCell r.customer_name := rfl

theorem pipeRow_product (now : Date) (r : Row) :
    (pipeRow now r).product_name = wsCell r.product_name := rfl

theorem pipeRow_email (now : Date) (r : Row) :
    (pipeRow now r).email = emailCell (wsCell r.email) := rfl

theorem pipeRow_phone (now : Date) (r : Row) :
    (pipeRow now r).phone = format_phone r.phone := rfl

theorem pipeRow_date (now : Date) (r : Row) :
    (pipeRow now r).order_date = parse_date now r.order_date := rfl

theorem pipeRow_price (now : Date) (r : Row) :
    (pipeRow now r).price = parse_price r.price := rfl

theorem pipeRow_quantity (now : Date) (r : Row) :
    (pipeRow now r).quantity = parse_quantity r.quantity := rfl

theorem pipeRow_category (now : Date) (r : Row) :
    (pipeRow now r).category = titleVal (replaceVal category_mapping (wsCell r.category)) := rfl

theorem pipeRow_status (now : Date) (r : Row) :
    (pipeRow now r).status = replaceVal status_mapping (wsCell r.status) := rfl

/-- The state of one row after a full pipeline run, as needed to show
the second run leaves it unchanged.  The email, positive-price and
category-not-a-variant-key components are exactly the conditions under
which a second run is the identity. -/
def CleanRow (now : Date) (r : Row) : Prop :=
  (∃ u, r.customer_name = Val.s u ∧ wsStr u = u) ∧
  (∃ u, r.product_name = Val.s u ∧ wsStr u = u) ∧
  (∃ l, r.email = Val.s l ∧ wsStr l = l ∧ lowerStr l = l ∧ emailMatch l = true) ∧
  (r.phone = Val.absent ∨ ∃ ds : List Char, ds.length = 10 ∧ (∀ c ∈ ds, c.isDigit = true) ∧
    r.phone = Val.s ⟨ds.take 3 ++ '-' :: ((ds.drop 3).take 3 ++ '-' :: ds.drop 6)⟩) ∧
  (r.order_date = Val.absent ∨ ∃ d, validDate d = true ∧ dateLt now d = false ∧
    1000 ≤ d.year ∧ r.order_date = Val.s (fmtDate d)) ∧
  (r.price = Val.absent ∨ ∃ x : ℚ, 0 < x ∧ round2 x = x ∧ r.price = Val.q x) ∧
  (r.quantity = Val.absent ∨ ∃ k : Int, 0 < k ∧ r.quantity = Val.n k) ∧
  (∃ u, r.category = Val.s u ∧ wsStr u = u ∧ titleStr u = u ∧
    category_mapping.lookup u = none) ∧
  (∃ u, r.status = Val.s u ∧ wsStr u = u ∧ status_mapping.lookup u = none)

theorem category_mapping_vals_fix :
    ∀ p ∈ category_mapping, titleStr p.2 = p.2 ∧ wsStr p.2 = p.2 := by
  decide

theorem status_mapping_vals_fix : ∀ p ∈ status_mapping, wsStr p.2 = p.2 := by
  decide

theorem emailCell_wsCell (v0 : Val) :
    emailCell (wsCell v0) = Val.absent ∨
      ∃ l, emailCell (wsCell v0) = Val.s l ∧ wsStr l = l ∧ lowerStr l = l ∧
        emailMatch l = true ∧ emailFull l = true := by
  rw [wsCell]
  by_cases hm : emailMatch (lowerStr (wsStr (valToStr v0))) = true
  · right
    have hnl : ¬ '\n' ∈ (lowerStr (wsStr (valToStr v0))).data :=
      newline_not_mem_lowerStr (newline_not_mem_wsStr _)
    have hfull : emailFull (lowerStr (wsStr (valToStr v0))) = true :=
      emailMatch_of_no_newline hm hnl
    refine ⟨lowerStr (wsStr (valToStr v0)), ?_, ?_, lowerStr_idem _, hm, hfull⟩
    · simp [emailCell, emailLower, hm]
    · exact wsStr_eq_self_of_noWS (emailFull_noWS hfull)
  · left
    simp [emailCell, emailLower, hm]

theorem cleanRow_of_pipeRow (now : Date) (r0 : Row)
    (h2 : (pipeRow now r0).email ≠ Val.absent)
    (h3 : ∀ u, (pipeRow now r0).category = Val.s u → category_mapping.lookup u = none)
    (h4 : (pipeRow now r0).price ≠ Val.q 0)
    (h5 : fullYearDate (pipeRow now r0).order_date = true) :
    CleanRow now (pipeRow now r0) := by
  refine ⟨?_, ?_, ?_, ?_, ?_, ?_, ?_, ?_, ?_⟩
  · rw [pipeRow_customer, wsCell]
    exact ⟨wsStr (valToStr r0.customer_name), rfl, wsStr_idem _⟩
  · rw [pipeRow_product, wsCell]
    exact ⟨wsStr (valToStr r0.product_name), rfl, wsStr_idem _⟩
  · rcases emailCell_wsCell r0.email with h | ⟨l, hl, hfix, hlow, hmatch, _⟩
    · exact absurd (by rw [pipeRow_email, h]) h2
    · exact ⟨l, by rw [pipeRow_email, hl], hfix, hlow, hmatch⟩
  · rw [pipeRow_phone]
    rcases format_phone_shape r0.phone with h | ⟨ds, h10, hall, heq⟩
    · exact Or.inl h
    · exact Or.inr ⟨ds, h10, hall, heq⟩
  · rw [pipeRow_date]
    rcases parse_date_shape now r0.order_date with h | ⟨d, hv, hlt, heq⟩
    · exact Or.inl h
    · right
      refine ⟨d, hv, hlt, ?_, heq⟩
      have h5' : fullYearDate (Val.s (fmtDate d)) = true := by
        rw [← heq, ← pipeRow_date]
        exact h5
      have hlen : (fmtDate d).data.length = 10 := by
        simpa [fullYearDate] using h5'
      exact fmtDate_year_ge_1000 hlen
  · rw [pipeRow_price]
    rcases parse_price_shape r0.price with h | ⟨x, hx, heq⟩
    · exact Or.inl h
    · right
      refine ⟨round2 x, ?_, round2_idem x, heq⟩
      rcases lt_or_eq_of_le (round2_nonneg hx) with h0 | h0
      · exact h0
      · exfalso
        apply h4
        rw [pipeRow_price, heq, ← h0]
  · rw [pipeRow_quantity]
    rcases parse_quantity_shape r0.quantity with h | ⟨k, hk, heq⟩
    · exact Or.inl h
    · exact Or.inr ⟨k, hk, heq⟩
  · rw [pipeRow_category, wsCell]
    cases hl : category_mapping.lookup (wsStr (valToStr r0.category)) with
    | some c =>
      rcases lookup_val_mem hl with ⟨p, hp, hpv⟩
      have hfix := category_mapping_vals_fix p hp
      have hnone := category_mapping_vals p hp
      refine ⟨c, ?_, ?_, ?_, ?_⟩
      · rw [replaceVal]
        simp [hl, titleVal]
        rw [← hpv]
        exact hfix.1
      · rw [← hpv]
        exact hfix.2
      · rw [← hpv]
        exact hfix.1
      · rw [← hpv]
        exact hnone
    | none =>
      refine ⟨titleStr (wsStr (valToStr r0.category)), ?_, wsStr_titleStr_wsStr _, titleStr_idem _, ?_⟩
      · rw [replaceVal]
        simp [hl, titleVal]
      · apply h3
        rw [pipeRow_category, wsCell, replaceVal]
        simp [hl, titleVal]
  · rw [pipeRow_status, wsCell]
    cases hl : status_mapping.lookup (wsStr (valToStr r0.status)) with
    | some c =>
      rcases lookup_val_mem hl with ⟨p, hp, hpv⟩
      refine ⟨c, ?_, ?_, ?_⟩
      · rw [replaceVal]
        simp [hl]
      · rw [← hpv]
        exact status_mapping_vals_fix p hp
      · rw [← hpv]
        exact status_mapping_vals p hp
    | none =>
      refine ⟨wsStr (valToStr r0.status), ?_, wsStr_idem _, hl⟩
      rw [replaceVal]
      simp [hl]

/-! ## Second-run fixed points -/

theorem stripStr_of_wsFixed {v : String} (h : wsStr v = v) : stripStr v = v := by
  conv_lhs => rw [← h]
  rw [stripStr_wsStr, h]

theorem wsCell_fix {u : String} (h : wsStr u = u) : wsCell (Val.s u) = Val.s u := by
  rw [wsCell]
  show Val.s (wsStr u) = Val.s u
  rw [h]

theorem wsRow_fix {now : Date} {r : Row} (h : CleanRow now r) : wsRow r = r := by
  obtain ⟨⟨u1, hc1, hf1⟩, ⟨u2, hp2, hf2⟩, ⟨l, he, hef, _, _⟩, _, _, _, _,
    ⟨uc, hcat, hcf, _, _⟩, ⟨us, hst, hsf, _⟩⟩ := h
  rw [wsRow, hc1, hp2, he, hcat, hst, wsCell_fix hf1, wsCell_fix hf2, wsCell_fix hef,
    wsCell_fix hcf, wsCell_fix hsf]
  rw [← hc1, ← hp2, ← he, ← hcat, ← hst]

theorem emailRow_fix {now : Date} {r : Row} (h : CleanRow now r) : emailRow r = r := by
  obtain ⟨_, _, ⟨l, he, _, hlow, hmatch⟩, _, _, _, _, _, _⟩ := h
  rw [emailRow, he, emailCell_fix hlow hmatch, ← he]

theorem phoneRow_fix {now : Date} {r : Row} (h : CleanRow now r) : phoneRow r = r := by
  obtain ⟨_, _, _, hph, _, _, _, _, _⟩ := h
  rcases hph with ha | ⟨ds, h10, hall, heq⟩
  · rw [phoneRow, ha]
    show { r with phone := Val.absent } = r
    rw [← ha]
  · rw [phoneRow, heq, format_phone_fix h10 hall, ← heq]

theorem dateRow_fix {now : Date} {r : Row} (h : CleanRow now r) : dateRow now r = r := by
  obtain ⟨_, _, _, _, hdt, _, _, _, _⟩ := h
  rcases hdt with ha | ⟨d, hv, hlt, hy, heq⟩
  · rw [dateRow, ha]
    show { r with order_date := Val.absent } = r
    rw [← ha]
  · rw [dateRow, heq, parse_date_fix hv hlt hy, ← heq]

theorem priceRow_fix {now : Date} {r : Row} (h : CleanRow now r) : priceRow r = r := by
  obtain ⟨_, _, _, _, _, hpr, _, _, _⟩ := h
  rcases hpr with ha | ⟨x, hx, hfix, heq⟩
  · rw [priceRow, ha]
    show { r with price := Val.absent } = r
    rw [← ha]
  · rw [priceRow, heq, parse_price_fix hx hfix, ← heq]

theorem qtyRow_fix {now : Date} {r : Row} (h : CleanRow now r) : qtyRow r = r := by
  obtain ⟨_, _, _, _, _, _, hq, _, _⟩ := h
  rcases hq with ha | ⟨k, hk, heq⟩
  · rw [qtyRow, ha]
    show { r with quantity := Val.absent } = r
    rw [← ha]
  · rw [qtyRow, heq, parse_quantity_fix hk, ← heq]

theorem catRow_fix {now : Date} {r : Row} (h : CleanRow now r) : catRow r = r := by
  obtain ⟨_, _, _, _, _, _, _, ⟨u, hcat, _, htfix, hnone⟩, _⟩ := h
  rw [catRow, hcat]
  have hrep : replaceVal category_mapping (Val.s u) = Val.s u := by
    rw [replaceVal]
    simp [hnone]
  rw [hrep]
  show { r with category := Val.s (titleStr u) } = r
  rw [htfix, ← hcat]

theorem statusRow_fix {now : Date} {r : Row} (h : CleanRow now r) : statusRow r = r := by
  obtain ⟨_, _, _, _, _, _, _, _, ⟨u, hst, _, hnone⟩⟩ := h
  rw [statusRow, hst]
  have hrep : replaceVal status_mapping (Val.s u) = Val.s u := by
    rw [replaceVal]
    simp [hnone]
  rw [hrep, ← hst]

theorem map_eq_self {α : Type} {f : α → α} {l : List α} (h : ∀ a ∈ l, f a = a) : l.map f = l :=
  (List.map_congr_left h).trans (List.map_id l)

theorem remove_duplicates_fix {t : Table} (h : dedupFirst t = t) :
    remove_duplicates t = (t, []) := by
  rw [remove_duplicates, h]
  simp [optEntry]

theorem clean_whitespace_fix {now : Date} {t : Table} (h : ∀ r ∈ t, CleanRow now r) :
    clean_whitespace t = (t, [⟨"clean_whitespace", "Whitespace cleaned in text fields", 0⟩]) := by
  rw [clean_whitespace]
  have hmap : t.map wsRow = t := map_eq_self (fun r hr => wsRow_fix (h r hr))
  have hzero : ∀ f : Row → Val, (∀ r ∈ t, ∃ u, f r = Val.s u ∧ wsStr u = u) →
      colWsCount t f = 0 := by
    intro f hf
    rw [colWsCount, List.countP_eq_zero]
    intro r hr
    rcases hf r hr with ⟨u, hu, hfix⟩
    rw [hu]
    show ¬(stripStr (valToStr (Val.s u)) != valToStr (Val.s u)) = true
    show ¬(stripStr u != u) = true
    rw [stripStr_of_wsFixed hfix]
    simp
  have h1 : colWsCount t (fun r => r.customer_name) = 0 := hzero _ (fun r hr => (h r hr).1)
  have h2 : colWsCount t (fun r => r.email) = 0 := hzero _ (fun r hr => by
    rcases (h r hr).2.2.1 with ⟨l, he, hw, _, _⟩
    exact ⟨l, he, hw⟩)
  have h3 : colWsCount t (fun r => r.product_name) = 0 := hzero _ (fun r hr => (h r hr).2.1)
  have h4 : colWsCount t (fun r => r.category) = 0 := hzero _ (fun r hr => by
    rcases (h r hr).2.2.2.2.2.2.2.1 with ⟨u, hu, hw, _, _⟩
    exact ⟨u, hu, hw⟩)
  have h5 : colWsCount t (fun r => r.status) = 0 := hzero _ (fun r hr => by
    rcases (h r hr).2.2.2.2.2.2.2.2 with ⟨u, hu, hw, _⟩
    exact ⟨u, hu, hw⟩)
  rw [hmap, h1, h2, h3, h4, h5]

theorem standardize_emails_fix {now : Date} {t : Table} (h : ∀ r ∈ t, CleanRow now r) :
    standardize_emails t = (t, []) := by
  rw [standardize_emails]
  have hmap : t.map emailRow = t := map_eq_self (fun r hr => emailRow_fix (h r hr))
  have hc : t.countP (fun r => emailCounted r.email) = 0 := by
    rw [List.countP_eq_zero]
    intro r hr
    rcases (h r hr).2.2.1 with ⟨l, he, _, hlow, hm⟩
    rw [he]
    simp [emailCounted_fix hlow hm]
  rw [hmap, hc]
  simp [optEntry]

theorem clean_phone_numbers_fix {now : Date} {t : Table} (h : ∀ r ∈ t, CleanRow now r) :
    clean_phone_numbers t = (t, []) := by
  rw [clean_phone_numbers]
  have hmap : t.map phoneRow = t := map_eq_self (fun r hr => phoneRow_fix (h r hr))
  rw [hmap]
  simp [optEntry]

theorem standardize_dates_fix {now : Date} {t : Table} (h : ∀ r ∈ t, CleanRow now r) :
    standardize_dates now t = (t, []) := by
  rw [standardize_dates]
  have hmap : t.map (dateRow now) = t := map_eq_self (fun r hr => dateRow_fix (h r hr))
  rw [hmap]
  simp [optEntry]

theorem clean_prices_fix {now : Date} {t : Table} (h : ∀ r ∈ t, CleanRow now r) :
    clean_prices t = (t, []) := by
  rw [clean_prices]
  have hmap : t.map priceRow = t := map_eq_self (fun r hr => priceRow_fix (h r hr))
  rw [hmap]
  simp [optEntry]

theorem clean_quantities_fix {now : Date} {t : Table} (h : ∀ r ∈ t, CleanRow now r) :
    clean_quantities t = (t, []) := by
  rw [clean_quantities]
  have hmap : t.map qtyRow = t := map_eq_self (fun r hr => qtyRow_fix (h r hr))
  rw [hmap]
  simp [optEntry]

theorem standardize_categories_fix {now : Date} {t : Table} (h : ∀ r ∈ t, CleanRow now r) :
    standardize_categories t = (t, []) := by
  rw [standardize_categories]
  have hmap : t.map catRow = t := map_eq_self (fun r hr => catRow_fix (h r hr))
  rw [hmap]
  simp [optEntry]

theorem standardize_status_fix {now : Date} {t : Table} (h : ∀ r ∈ t, CleanRow now r) :
    standardize_status t = (t, []) := by
  rw [standardize_status]
  have hmap : t.map statusRow = t := map_eq_self (fun r hr => statusRow_fix (h r hr))
  rw [hmap]
  simp [optEntry]

theorem run_pipeline_fix (now : Date) (O : Table) (hnd : dedupFirst O = O)
    (h : ∀ r ∈ O, CleanRow now r) :
    run_cleaning_pipeline now O =
      (O, [⟨"clean_whitespace", "Whitespace cleaned in text fields", 0⟩]) := by
  have h1 := remove_duplicates_fix hnd
  have h2 := clean_whitespace_fix h
  have h3 := standardize_emails_fix h
  have h4 := clean_phone_numbers_fix h
  have h5 := standardize_dates_fix h
  have h6 := clean_prices_fix h
  have h7 := clean_quantities_fix h
  have h8 := standardize_categories_fix h
  have h9 := standardize_status_fix h
  simp only [run_cleaning_pipeline, h1, h2, h3, h4, h5, h6, h7, h8, h9]
  simp

/-! ## Stage observers and log decomposition -/

/-- Table after `remove_duplicates`. -/
def stage1 (t : Table) : Table := (remove_duplicates t).1

/-- Table after `clean_whitespace`. -/
def stage2 (t : Table) : Table := (clean_whitespace (stage1 t)).1

/-- Table after `standardize_emails`. -/
def stage3 (t : Table) : Table := (standardize_emails (stage2 t)).1

/-- Table after `clean_phone_numbers`. -/
def stage4 (t : Table) : Table := (clean_phone_numbers (stage3 t)).1

/-- Table after `standardize_dates`. -/
def stage5 (now : Date) (t : Table) : Table := (standardize_dates now (stage4 t)).1

/-- Table after `clean_prices`. -/
def stage6 (now : Date) (t : Table) : Table := (clean_prices (stage5 now t)).1

/-- Table after `clean_quantities`. -/
def stage7 (now : Date) (t : Table) : Table := (clean_quantities (stage6 now t)).1

/-- Table after `standardize_categories`. -/
def stage8 (now : Date) (t : Table) : Table := (standardize_categories (stage7 now t)).1

theorem pipeline_decomp (now : Date) (t : Table) :
    run_cleaning_pipeline now t =
      ((standardize_status (stage8 now t)).1,
        (remove_duplicates t).2 ++ (clean_whitespace (stage1 t)).2 ++
          (standardize_emails (stage2 t)).2 ++ (clean_phone_numbers (stage3 t)).2 ++
          (standardize_dates now (stage4 t)).2 ++ (clean_prices (stage5 now t)).2 ++
          (clean_quantities (stage6 now t)).2 ++ (standardize_categories (stage7 now t)).2 ++
          (standardize_status (stage8 now t)).2) := rfl

theorem optEntry_length (b : Bool) (e : Entry) : (optEntry b e).length = if b then 1 else 0 := by
  cases b <;> rfl

theorem mem_optEntry {x : Entry} {b : Bool} {e : Entry} :
    x ∈ optEntry b e ↔ b = true ∧ x = e := by
  cases b <;> simp [optEntry]

theorem optEntry_length_if (c : Prop) [Decidable c] (e : Entry) :
    (optEntry (decide c) e).length = if c then 1 else 0 := by
  by_cases h : c <;> simp [optEntry, h]

theorem notnaCount_map (t : Table) (g : Row → Row) (f : Row → Val) :
    notnaCount (t.map g) f = t.countP (fun r => !(f (g r)).isAbsent) := by
  rw [notnaCount, List.countP_map]
  rfl

/-- The count logged by a null-preserving column step equals the number
of rows whose input is present and output absent. -/
theorem count_diff_eq (t : Table) (f : Row → Val) (g : Row → Row)
    (habs : ∀ r, (f r).isAbsent = true → (f (g r)).isAbsent = true) :
    notnaCount t f - notnaCount (t.map g) f =
      t.countP (fun r => !(f r).isAbsent && (f (g r)).isAbsent) := by
  rw [notnaCount_map, notnaCount]
  have himp : ∀ r, (fun r => !(f (g r)).isAbsent) r = true → (fun r => !(f r).isAbsent) r = true := by
    intro r hq
    simp only [Bool.not_eq_true'] at hq ⊢
    cases ha : (f r).isAbsent with
    | false => rfl
    | true => rw [habs r ha] at hq; cases hq
  rw [countP_sub _ _ himp]
  apply List.countP_congr
  intro r _
  simp [Bool.not_not]

/-! ## Claim theorems -/

/-- C8: `remove_duplicates` deletes exactly the rows equal to an
earlier row, keeping the first occurrence in insertion order: the
result is a duplicate-free sublist of the input with the same row set,
and on a cons it keeps the head and drops its later copies.  Two fully
identical rows leave exactly one with a logged `remove_duplicates`
count of 1.  Every other step maps the table row-for-row, so the
pipeline's output never has more rows than its input. -/
theorem claim_C8 :
    (∀ t : Table, List.Sublist (dedupFirst t) t ∧ (dedupFirst t).Nodup ∧
      (∀ r : Row, r ∈ dedupFirst t ↔ r ∈ t)) ∧
    (∀ (r : Row) (rs : Table),
      dedupFirst (r :: rs) = r :: dedupFirst (rs.filter (· != r))) ∧
    (∀ r : Row, remove_duplicates [r, r] =
      ([r], [⟨"remove_duplicates", "Duplicate rows removed", 1⟩])) ∧
    (∀ t : Table, (clean_whitespace t).1.length = t.length ∧
      (standardize_emails t).1.length = t.length ∧
      (clean_phone_numbers t).1.length = t.length ∧
      (clean_prices t).1.length = t.length ∧
      (clean_quantities t).1.length = t.length ∧
      (standardize_categories t).1.length = t.length ∧
      (standardize_status t).1.length = t.length) ∧
    (∀ (now : Date) (t : Table), (standardize_dates now t).1.length = t.length) ∧
    (∀ (now : Date) (t : Table),
      ((run_cleaning_pipeline now t).1).length ≤ t.length) := by
  refine ⟨?_, ?_, ?_, ?_, ?_, ?_⟩
  · intro t
    refine ⟨dedupAux_sublist t [], nodup_dedupAux t [], ?_⟩
    intro r
    rw [dedupFirst, mem_dedupAux]
    simp
  · exact dedupFirst_cons
  · intro r
    have hd : dedupFirst [r, r] = [r] := by
      rw [dedupFirst, dedupAux, if_neg (List.not_mem_nil r), dedupAux,
        if_pos (List.mem_cons_self r []), dedupAux]
    rw [remove_duplicates, hd]
    rfl
  · intro t
    refine ⟨?_, ?_, ?_, ?_, ?_, ?_, ?_⟩ <;>
      simp [clean_whitespace, standardize_emails, clean_phone_numbers, clean_prices,
        clean_quantities, standardize_categories, standardize_status]
  · intro now t
    simp [standardize_dates]
  · intro now t
    rw [pipeline_fst, List.length_map]
    exact (dedupAux_sublist t []).length_le

/-- C9: `standardize_categories` sends every value that is a key of
the variant table to its canonical name — one of `Electronics`,
`Clothing`, `Home & Garden`, `Books` — and the subsequent title-casing
pass leaves these canonical names exactly as they are; a value not in
the table gets the generic capitalize-each-word transform.  `"elec"`
becomes `"Electronics"` and the unrecognised `"outdoor gear"` becomes
`"Outdoor Gear"`. -/
theorem claim_C9 :
    (∀ t : Table, (standardize_categories t).1 = t.map catRow) ∧
    (∀ u c, category_mapping.lookup u = some c →
      titleVal (replaceVal category_mapping (Val.s u)) = Val.s c ∧
        (c = "Electronics" ∨ c = "Clothing" ∨ c = "Home & Garden" ∨ c = "Books")) ∧
    (∀ u, category_mapping.lookup u = none →
      titleVal (replaceVal category_mapping (Val.s u)) = Val.s (titleStr u)) ∧
    (titleVal (replaceVal category_mapping (Val.s "elec")) = Val.s "Electronics" ∧
      titleVal (replaceVal category_mapping (Val.s "outdoor gear")) = Val.s "Outdoor Gear") := by
  refine ⟨fun t => rfl, ?_, ?_, by decide⟩
  · intro u c hl
    have hcanon : ∀ p ∈ category_mapping,
        (p.2 = "Electronics" ∨ p.2 = "Clothing" ∨ p.2 = "Home & Garden" ∨ p.2 = "Books") := by
      decide
    rcases lookup_val_mem hl with ⟨p, hp, hpv⟩
    constructor
    · rw [replaceVal]
      simp only [hl, Option.getD_some, titleVal]
      rw [← hpv, (category_mapping_vals_fix p hp).1]
    · rw [← hpv]
      exact hcanon p hp
  · intro u hl
    rw [replaceVal]
    simp only [hl, Option.getD_none, titleVal]

/-- C9 witness: the key case at `"elec"` and the fallback case at
`"outdoor gear"`. -/
theorem claim_C9_witness :
    titleVal (replaceVal category_mapping (Val.s "elec")) = Val.s "Electronics" ∧
      titleVal (replaceVal category_mapping (Val.s "outdoor gear")) = Val.s "Outdoor Gear" :=
  ⟨(claim_C9.2.1 "elec" "Electronics" (by decide)).1,
    by
      have h := claim_C9.2.2.1 "outdoor gear" (by decide)
      rw [h]
      decide⟩

/-- C10: after `clean_whitespace` every value of the five text columns
is a non-absent string (the step is `astype(str)` followed by
whitespace cleanup), an absent input becoming the literal string
`"nan"`; such a `"nan"` email then fails the pattern in
`standardize_emails`, is included in the invalid-email count, and is
set back to absent. -/
theorem claim_C10 :
    (∀ t : Table, (clean_whitespace t).1 = t.map wsRow) ∧
    (∀ r : Row, (∃ u, (wsRow r).customer_name = Val.s u) ∧
      (∃ u, (wsRow r).email = Val.s u) ∧ (∃ u, (wsRow r).product_name = Val.s u) ∧
      (∃ u, (wsRow r).category = Val.s u) ∧ (∃ u, (wsRow r).status = Val.s u)) ∧
    (∀ r : Row, r.email = Val.absent → (wsRow r).email = Val.s "nan") ∧
    (emailCell (Val.s "nan") = Val.absent ∧ emailCounted (Val.s "nan") = true) ∧
    (∀ t : Table, (standardize_emails t).2 =
      optEntry (decide (0 < t.countP (fun r => emailCounted r.email)))
        ⟨"standardize_emails", "Invalid emails removed",
          t.countP (fun r => emailCounted r.email)⟩) := by
  refine ⟨fun t => rfl, ?_, ?_, by decide, fun t => rfl⟩
  · intro r
    exact ⟨⟨_, rfl⟩, ⟨_, rfl⟩, ⟨_, rfl⟩, ⟨_, rfl⟩, ⟨_, rfl⟩⟩
  · intro r he
    show wsCell r.email = Val.s "nan"
    rw [he]
    decide

/-- C10 witness: a row whose email is absent reaches
`standardize_emails` as the string `"nan"`. -/
theorem claim_C10_witness : (wsRow rowAbsentEmail).email = Val.s "nan" :=
  claim_C10.2.2.1 rowAbsentEmail rfl

/-- C4 counterexample: the input `"01/15/0999"` parses (the `%Y` regex
takes any four digits and year 999 is a valid `datetime` year), is not
in the future, and is reformatted — but `strftime('%Y')` does not
zero-pad years below 1000, so the output is the nine-character
`"999-01-15"`, not a zero-padded `YYYY-MM-DD`; that unpadded rendering
does not even re-parse under any of the five formats. -/
theorem claim_C4_counterexample :
    (parse_date ⟨2025, 10, 12⟩ (Val.s "01/15/0999") = Val.s "999-01-15") ∧
      ("999-01-15" : String).data.length ≠ 10 ∧
      parse_date ⟨2025, 10, 12⟩ (Val.s "999-01-15") = Val.absent := by
  decide

/-- C4 as amended: `parse_date` trims the raw text and tries the five
formats in source order, the first regex-and-calendar success winning
(a match of the first format decides the result); a parsed date
strictly later than the processing date gives absent, otherwise the
value is rewritten as `Y-MM-DD` with zero-padded two-digit month and
day but the year printed unpadded as `strftime('%Y')` does — four
digits exactly when the year is at least 1000, fewer otherwise;
unparseable values give absent.  `"15 January 2024"` becomes
`"2024-01-15"`, a date ten years in the future becomes absent, and
year 999 renders as `"999-01-15"`. -/
theorem claim_C4_amended :
    (∀ (now : Date) (t : String), parse_date now (Val.s t) =
      (match tryFormats (stripL t.data) with
        | none => Val.absent
        | some d => if dateLt now d then Val.absent else Val.s (fmtDate d))) ∧
    (∀ (cs : List Char) (d : Date), matchMDY cs = some d → validDate d = true →
      tryFormats cs = some d) ∧
    (∀ (now : Date) (v : Val), parse_date now v = Val.absent ∨
      ∃ d, validDate d = true ∧ dateLt now d = false ∧ parse_date now v = Val.s (fmtDate d)) ∧
    (∀ (now : Date) (t : String) (d : Date), tryFormats (stripL t.data) = some d →
      dateLt now d = true → parse_date now (Val.s t) = Val.absent) ∧
    (∀ d : Date, 1000 ≤ d.year → d.year ≤ 9999 →
      fmtDate d = ⟨[digitChar (d.year / 1000), digitChar (d.year / 100 % 10),
        digitChar (d.year / 10 % 10), digitChar (d.year % 10), '-',
        digitChar (d.month / 10 % 10), digitChar (d.month % 10), '-',
        digitChar (d.day / 10 % 10), digitChar (d.day % 10)]⟩) ∧
    (fmtDate ⟨999, 1, 15⟩ = "999-01-15") ∧
    (parse_date ⟨2025, 10, 12⟩ (Val.s "15 January 2024") = Val.s "2024-01-15" ∧
      parse_date ⟨2025, 10, 12⟩ (Val.s "2034-01-15") = Val.absent ∧
      parse_date ⟨2025, 10, 12⟩ (Val.s "  01/15/2024 ") = Val.s "2024-01-15" ∧
      parse_date ⟨2025, 10, 12⟩ (Val.s "not a date") = Val.absent) := by
  refine ⟨fun now t => rfl, ?_, parse_date_shape, ?_, ?_, by decide, by decide⟩
  · intro cs d hm hv
    rw [tryFormats]
    have h1 : validated (matchMDY cs) = some d := by
      rw [hm, validated, Option.some_bind, if_pos hv]
    rw [h1]
    rfl
  · intro now t d ht hlt
    have hv : valToStr (Val.s t) = t := rfl
    simp [parse_date, hv, ht, hlt]
  · intro d h1 h2
    show (⟨yearChars d.year ++ _⟩ : String) = _
    rw [yearChars_of_ge1000 h1 h2]
    rfl

/-- C4 witness: the first-format case at `"01/15/2024"`, the
future-date rule at `"2034-01-15"`, and the four-digit rendering at
year 2024. -/
theorem claim_C4_witness :
    tryFormats "01/15/2024".data = some ⟨2024, 1, 15⟩ ∧
      parse_date ⟨2025, 10, 12⟩ (Val.s "2034-01-15") = Val.absent ∧
      fmtDate ⟨2024, 1, 15⟩ = ⟨['2', '0', '2', '4', '-', '0', '1', '-', '1', '5']⟩ :=
  ⟨claim_C4_amended.2.1 "01/15/2024".data ⟨2024, 1, 15⟩ (by decide) (by decide),
    claim_C4_amended.2.2.2.1 ⟨2025, 10, 12⟩ "2034-01-15" ⟨2034, 1, 15⟩ (by decide) (by decide),
    by rw [claim_C4_amended.2.2.2.2.1 ⟨2024, 1, 15⟩ (by decide) (by decide)]; decide⟩

/-- C5: `clean_phone_numbers` keeps only the decimal digits of each
non-absent value; an 11-digit number with leading `1` loses that
digit; exactly 10 digits are formatted `DDD-DDD-DDDD` and any other
count gives absent; `"(555) 123-4567"` becomes `"555-123-4567"`; the
logged count equals the number of rows with a non-absent input and an
absent output, and an entry is appended exactly when it is positive. -/
theorem claim_C5 :
    (∀ u : String, format_phone (Val.s u) = formatDigits (digitsOf u)) ∧
    (∀ ds : List Char, ds.length = 11 → ds.headD ' ' = '1' →
      formatDigits ds =
        Val.s ⟨ds.tail.take 3 ++ '-' :: ((ds.tail.drop 3).take 3 ++ '-' :: ds.tail.drop 6)⟩) ∧
    (∀ ds : List Char, ds.length = 10 → ¬(ds.length = 11 ∧ ds.headD ' ' = '1') →
      formatDigits ds =
        Val.s ⟨ds.take 3 ++ '-' :: ((ds.drop 3).take 3 ++ '-' :: ds.drop 6)⟩) ∧
    (∀ ds : List Char, ¬ds.length = 10 → ¬(ds.length = 11 ∧ ds.headD ' ' = '1') →
      formatDigits ds = Val.absent) ∧
    (format_phone Val.absent = Val.absent) ∧
    (format_phone (Val.s "(555) 123-4567") = Val.s "555-123-4567") ∧
    (∀ v : Val, format_phone v = Val.absent ∨
      ∃ ds : List Char, ds.length = 10 ∧ (∀ c ∈ ds, c.isDigit = true) ∧
        format_phone v = Val.s ⟨ds.take 3 ++ '-' :: ((ds.drop 3).take 3 ++ '-' :: ds.drop 6)⟩) ∧
    (∀ t : Table,
      notnaCount t (fun r => r.phone) - notnaCount (t.map phoneRow) (fun r => r.phone) =
        t.countP (fun r => !(r.phone).isAbsent && (format_phone r.phone).isAbsent)) ∧
    (∀ t : Table, clean_phone_numbers t =
      (t.map phoneRow,
        optEntry (decide (0 < notnaCount t (fun r => r.phone) -
            notnaCount (t.map phoneRow) (fun r => r.phone)))
          ⟨"clean_phone_numbers", "Invalid phone numbers removed",
            notnaCount t (fun r => r.phone) -
              notnaCount (t.map phoneRow) (fun r => r.phone)⟩)) := by
  refine ⟨fun u => rfl, ?_, ?_, ?_, rfl, by decide, format_phone_shape, ?_, fun t => rfl⟩
  · intro ds h11 h1
    rw [formatDigits, if_pos (show ds.length = 11 ∧ ds.headD ' ' = '1' from ⟨h11, h1⟩)]
    rw [if_pos (show ds.tail.length = 10 by rw [List.length_tail, h11])]
  · intro ds h10 hns
    rw [formatDigits, if_neg hns, if_pos h10]
  · intro ds h10 hns
    rw [formatDigits, if_neg hns, if_neg h10]
  · intro t
    exact count_diff_eq t (fun r => r.phone) phoneRow (fun r ha => by
      have ha2 : (r.phone).isAbsent = true := ha
      show (format_phone r.phone).isAbsent = true
      cases hr : r.phone with
      | absent => rfl
      | s u => rw [hr] at ha2; cases ha2
      | q x => rw [hr] at ha2; cases ha2
      | n k => rw [hr] at ha2; cases ha2)

/-- C5 witness: the three digit-count cases at concrete digit lists. -/
theorem claim_C5_witness :
    formatDigits "15551234567".data =
        Val.s ⟨"15551234567".data.tail.take 3 ++
          '-' :: (("15551234567".data.tail.drop 3).take 3 ++
            '-' :: "15551234567".data.tail.drop 6)⟩ ∧
      formatDigits "5551234567".data =
        Val.s ⟨"5551234567".data.take 3 ++
          '-' :: (("5551234567".data.drop 3).take 3 ++ '-' :: "5551234567".data.drop 6)⟩ ∧
      formatDigits "555123".data = Val.absent :=
  ⟨claim_C5.2.1 "15551234567".data (by decide) (by decide),
    claim_C5.2.2.1 "5551234567".data (by decide) (by decide),
    claim_C5.2.2.2.1 "555123".data (by decide) (by decide)⟩


/-- C6: `parse_price` strips the value, deletes the `$` signs and the
commas, and parses the rest as a decimal; a parse failure or a value
at most 0 gives absent, and a positive value is rounded to two decimal
places; `"$1,299.99"` becomes `1299.99` and `"-5"` becomes absent. -/
theorem claim_C6 :
    (∀ (t : String) (x : ℚ),
      pyFloat? (removeChar ',' (removeChar '$' (stripStr t))) = some x →
        parse_price (Val.s t) = (if x ≤ 0 then Val.absent else Val.q (round2 x))) ∧
    (∀ t : String, pyFloat? (removeChar ',' (removeChar '$' (stripStr t))) = none →
      parse_price (Val.s t) = Val.absent) ∧
    (∀ v : Val, parse_price v = Val.absent ∨
      ∃ r : ℚ, parse_price v = Val.q r ∧ round2 r = r) ∧
    (parse_price (Val.s "$1,299.99") = Val.q ((129999 : ℚ) / 100) ∧
      parse_price (Val.s "-5") = Val.absent ∧
      parse_price (Val.s "five dollars") = Val.absent) := by
  refine ⟨?_, ?_, ?_, by decide⟩
  · intro t x hp
    by_cases hx : x ≤ 0
    · simp [parse_price, hp, hx]
    · simp [parse_price, hp, hx]
  · intro t hp
    simp [parse_price, hp]
  · intro v
    rcases parse_price_shape v with h | ⟨x, _, heq⟩
    · exact Or.inl h
    · exact Or.inr ⟨round2 x, heq, round2_idem x⟩

/-- C6 witness: the parse-success rule at `"$1,299.99"` and the
parse-failure rule at `"five dollars"`. -/
theorem claim_C6_witness :
    parse_price (Val.s "$1,299.99") =
        (if (129999 : ℚ) / 100 ≤ 0 then Val.absent else Val.q (round2 ((129999 : ℚ) / 100))) ∧
      parse_price (Val.s "five dollars") = Val.absent :=
  ⟨claim_C6.1 "$1,299.99" ((129999 : ℚ) / 100) (by decide),
    claim_C6.2.1 "five dollars" (by decide)⟩

/-- C7 counterexample: the input price `"0.004"` is positive, so it
passes the sign check, but rounding to two decimals gives `0.00`;
the cleaned output then holds the non-absent, non-positive price 0. -/
theorem claim_C7_counterexample :
    ((run_cleaning_pipeline ⟨2025, 10, 12⟩ [rowTinyPrice]).1.map (fun r => r.price) =
      [Val.q 0]) ∧ ¬(0 < (0 : ℚ)) :=
  ⟨by decide, by norm_num⟩

/-- C7 as amended: `parse_quantity` trims, parses as a number,
truncates to an integer, and nulls non-positive or unparseable values,
so every non-absent quantity in the cleaned output is a positive
integer; every non-absent price in the cleaned output is a
*non-negative* number equal to its rounding to 2 decimals (the
pre-rounding value is positive, but rounding may produce 0.00). -/
theorem claim_C7_amended :
    (∀ t : String, parse_quantity (Val.s t) =
      (match pyFloat? (stripStr t) with
        | none => Val.absent
        | some x => if truncInt x ≤ 0 then Val.absent else Val.n (truncInt x))) ∧
    (∀ v : Val, parse_quantity v = Val.absent ∨
      ∃ k : Int, 0 < k ∧ parse_quantity v = Val.n k) ∧
    (∀ (now : Date) (t : Table), ∀ r ∈ (run_cleaning_pipeline now t).1,
      (r.quantity = Val.absent ∨ ∃ k : Int, 0 < k ∧ r.quantity = Val.n k) ∧
      (r.price = Val.absent ∨ ∃ x : ℚ, 0 ≤ x ∧ round2 x = x ∧ r.price = Val.q x)) := by
  refine ⟨fun t => rfl, parse_quantity_shape, ?_⟩
  intro now t r hr
  rw [pipeline_fst] at hr
  rcases List.mem_map.mp hr with ⟨r0, _, rfl⟩
  constructor
  · rw [pipeRow_quantity]
    exact parse_quantity_shape r0.quantity
  · rw [pipeRow_price]
    rcases parse_price_shape r0.price with h | ⟨x, hx, heq⟩
    · exact Or.inl h
    · exact Or.inr ⟨round2 x, round2_nonneg hx, round2_idem x, heq⟩

/-- C7 witness: the cleaned-output invariant at a concrete row. -/
theorem claim_C7_witness :
    ((pipeRow ⟨2025, 10, 12⟩ rowTinyPrice).quantity = Val.absent ∨
      ∃ k : Int, 0 < k ∧ (pipeRow ⟨2025, 10, 12⟩ rowTinyPrice).quantity = Val.n k) ∧
    ((pipeRow ⟨2025, 10, 12⟩ rowTinyPrice).price = Val.absent ∨
      ∃ x : ℚ, 0 ≤ x ∧ round2 x = x ∧ (pipeRow ⟨2025, 10, 12⟩ rowTinyPrice).price = Val.q x) :=
  claim_C7_amended.2.2 ⟨2025, 10, 12⟩ [rowTinyPrice] (pipeRow ⟨2025, 10, 12⟩ rowTinyPrice)
    (by decide)

/-- C3 counterexample: `re.match` lets `$` match just before one final
newline, so `standardize_emails` keeps the lower-cased value
`"a@b.co\n"` even though its entirety does not match the validation
pattern — it is not replaced with absent as the claim requires. -/
theorem claim_C3_counterexample :
    ((standardize_emails [rowNewlineEmail]).1.map (fun r => r.email) = [Val.s "a@b.co\n"]) ∧
      emailFull "a@b.co\n" = false := by decide

/-- C3 as amended: `standardize_emails` lower-cases every non-absent
email; a non-absent value is replaced with absent unless, after
lower-casing, it matches the pattern in full or in full save for one
trailing newline (Python's `$`); absent inputs are never counted and
stay absent; the count is the number of non-absent values failing that
test.  In the full pipeline's cleaned output (where whitespace
cleaning has removed any newline) every non-absent email is
lower-case and matches the pattern in full. -/
theorem claim_C3_amended :
    (∀ t : Table, (standardize_emails t).1 = t.map emailRow) ∧
    (∀ u : String, emailCell (Val.s u) =
      (if emailMatch (lowerStr u) then Val.s (lowerStr u) else Val.absent)) ∧
    (emailCell Val.absent = Val.absent ∧ emailCounted Val.absent = false) ∧
    (∀ v : Val, emailCell v = Val.absent ∨
      ∃ l, emailCell v = Val.s l ∧ lowerStr l = l ∧ emailMatch l = true) ∧
    (∀ u : String, emailCounted (Val.s u) = !emailMatch (lowerStr u)) ∧
    (∀ (now : Date) (t : Table), ∀ r ∈ (run_cleaning_pipeline now t).1,
      r.email = Val.absent ∨ ∃ l, r.email = Val.s l ∧ lowerStr l = l ∧ emailFull l = true) := by
  refine ⟨fun t => rfl, fun u => rfl, ⟨rfl, rfl⟩, emailCell_shape, fun u => rfl, ?_⟩
  intro now t r hr
  rw [pipeline_fst] at hr
  rcases List.mem_map.mp hr with ⟨r0, _, rfl⟩
  rw [pipeRow_email]
  rcases emailCell_wsCell r0.email with h | ⟨l, hl, _, hlow, _, hfull⟩
  · exact Or.inl h
  · exact Or.inr ⟨l, hl, hlow, hfull⟩

/-- C3 witness: the cleaned-output email invariant at a concrete
row. -/
theorem claim_C3_witness :
    (pipeRow ⟨2025, 10, 12⟩ rowTinyPrice).email = Val.absent ∨
      ∃ l, (pipeRow ⟨2025, 10, 12⟩ rowTinyPrice).email = Val.s l ∧ lowerStr l = l ∧
        emailFull l = true :=
  claim_C3_amended.2.2.2.2.2 ⟨2025, 10, 12⟩ [rowTinyPrice]
    (pipeRow ⟨2025, 10, 12⟩ rowTinyPrice) (by decide)

/-- C2 counterexample: on the empty table no step changes anything,
yet the change log is not empty — `clean_whitespace` appends its entry
unconditionally, here with count 0, so the log's entry count exceeds
the number of steps that detected a change. -/
theorem claim_C2_counterexample :
    ((run_cleaning_pipeline ⟨2025, 10, 12⟩ []).2 =
        [⟨"clean_whitespace", "Whitespace cleaned in text fields", 0⟩]) ∧
      ¬ (∀ e ∈ (run_cleaning_pipeline ⟨2025, 10, 12⟩ []).2, 0 < e.count) := by
  refine ⟨by decide, ?_⟩
  intro h
  exact absurd (h ⟨"clean_whitespace", "Whitespace cleaned in text fields", 0⟩ (by decide))
    (by decide)

/-- C2 as amended: `remove_duplicates`, `standardize_emails`,
`clean_phone_numbers`, `standardize_dates`, `clean_prices` and
`clean_quantities` each append one entry exactly when their change
count is positive, and `standardize_categories` / `standardize_status`
exactly when the distinct-value count decreased — but
`clean_whitespace` appends its entry on every run, count zero or not;
the change log's entry count is therefore one more than the number of
remaining steps that detected a change. -/
theorem claim_C2_amended :
    (∀ t : Table, (remove_duplicates t).2.length =
      if 0 < t.length - (dedupFirst t).length then 1 else 0) ∧
    (∀ t : Table, (clean_whitespace t).2.length = 1) ∧
    (∀ t : Table, (standardize_emails t).2.length =
      if 0 < t.countP (fun r => emailCounted r.email) then 1 else 0) ∧
    (∀ t : Table, (clean_phone_numbers t).2.length =
      if 0 < notnaCount t (fun r => r.phone) - notnaCount (t.map phoneRow) (fun r => r.phone)
      then 1 else 0) ∧
    (∀ (now : Date) (t : Table), (standardize_dates now t).2.length =
      if 0 < notnaCount t (fun r => r.order_date) -
          notnaCount (t.map (dateRow now)) (fun r => r.order_date)
      then 1 else 0) ∧
    (∀ t : Table, (clean_prices t).2.length =
      if 0 < notnaCount t (fun r => r.price) - notnaCount (t.map priceRow) (fun r => r.price)
      then 1 else 0) ∧
    (∀ t : Table, (clean_quantities t).2.length =
      if 0 < notnaCount t (fun r => r.quantity) -
          notnaCount (t.map qtyRow) (fun r => r.quantity)
      then 1 else 0) ∧
    (∀ t : Table, (standardize_categories t).2.length =
      if nunique ((t.map catRow).map (fun r => r.category)) <
          nunique (t.map (fun r => r.category))
      then 1 else 0) ∧
    (∀ t : Table, (standardize_status t).2.length =
      if nunique ((t.map statusRow).map (fun r => r.status)) <
          nunique (t.map (fun r => r.status))
      then 1 else 0) ∧
    (∀ (now : Date) (t : Table), (run_cleaning_pipeline now t).2.length =
      (remove_duplicates t).2.length + 1 + (standardize_emails (stage2 t)).2.length +
        (clean_phone_numbers (stage3 t)).2.length + (standardize_dates now (stage4 t)).2.length +
        (clean_prices (stage5 now t)).2.length + (clean_quantities (stage6 now t)).2.length +
        (standardize_categories (stage7 now t)).2.length +
        (standardize_status (stage8 now t)).2.length) := by
  refine ⟨fun t => optEntry_length_if _ _, fun t => rfl, fun t => optEntry_length_if _ _,
    fun t => optEntry_length_if _ _, fun now t => optEntry_length_if _ _,
    fun t => optEntry_length_if _ _, fun t => optEntry_length_if _ _,
    fun t => optEntry_length_if _ _, fun t => optEntry_length_if _ _, ?_⟩
  intro now t
  rw [pipeline_decomp]
  simp only [List.length_append]
  have h2 : (clean_whitespace (stage1 t)).2.length = 1 := rfl
  rw [h2]

/-- C1 counterexample: for a row whose category is the variant key
`"ELEC"`, the first run title-cases it to `"Elec"` — itself a key of
the variant mapping — so the second run maps it on to `"Electronics"`:
the second run's table differs from its input, and its change log even
carries a nonzero count (the first run also blanked the absent email
through the literal string `"nan"`, which the second run counts as an
invalid email again). -/
theorem claim_C1_counterexample :
    ((run_cleaning_pipeline ⟨2025, 10, 12⟩
        ((run_cleaning_pipeline ⟨2025, 10, 12⟩ [rowElec]).1)).1 ≠
      (run_cleaning_pipeline ⟨2025, 10, 12⟩ [rowElec]).1) ∧
    ¬ (∀ e ∈ (run_cleaning_pipeline ⟨2025, 10, 12⟩
        ((run_cleaning_pipeline ⟨2025, 10, 12⟩ [rowElec]).1)).2, e.count = 0) :=
  ⟨by decide, by decide⟩

/-- C1 as amended: a second pipeline run is the identity on the first
run's output — with a change log whose sole entry is the
unconditionally logged `clean_whitespace` entry with count 0 —
provided the first output is duplicate-free, no email in it is absent
(an absent email round-trips through the string `"nan"` and is
re-counted), no category in it is still a key of the variant mapping
(the title pass can turn the key `"ELEC"` into the key `"Elec"`), no
price in it is exactly 0 (a positive price can round to 0 and is then
dropped by the second run), and every date in it renders with a
four-digit year (`strftime` does not zero-pad years below 1000, and
the unpadded form does not re-parse). -/
theorem claim_C1_amended (now : Date) (t : Table)
    (hnd : dedupFirst ((run_cleaning_pipeline now t).1) = (run_cleaning_pipeline now t).1)
    (hemail : ∀ r ∈ (run_cleaning_pipeline now t).1, r.email ≠ Val.absent)
    (hcat : ∀ r ∈ (run_cleaning_pipeline now t).1, noCatKey r.category = true)
    (hprice : ∀ r ∈ (run_cleaning_pipeline now t).1, r.price ≠ Val.q 0)
    (hdate : ∀ r ∈ (run_cleaning_pipeline now t).1, fullYearDate r.order_date = true) :
    run_cleaning_pipeline now ((run_cleaning_pipeline now t).1) =
      ((run_cleaning_pipeline now t).1,
        [⟨"clean_whitespace", "Whitespace cleaned in text fields", 0⟩]) := by
  apply run_pipeline_fix now _ hnd
  intro r hr
  have hr' := hr
  rw [pipeline_fst] at hr'
  rcases List.mem_map.mp hr' with ⟨r0, _, rfl⟩
  refine cleanRow_of_pipeRow now r0 (hemail _ hr) ?_ (hprice _ hr) (hdate _ hr)
  intro u hu
  have hk := hcat _ hr
  rw [hu] at hk
  simpa [noCatKey, Option.isNone_iff_eq_none] using hk

/-- C1 witness: the second run at a concrete well-formed row. -/
theorem claim_C1_witness :
    run_cleaning_pipeline ⟨2025, 10, 12⟩
        ((run_cleaning_pipeline ⟨2025, 10, 12⟩ [rowGood]).1) =
      ((run_cleaning_pipeline ⟨2025, 10, 12⟩ [rowGood]).1,
        [⟨"clean_whitespace", "Whitespace cleaned in text fields", 0⟩]) :=
  claim_C1_amended ⟨2025, 10, 12⟩ [rowGood] (by decide) (by decide) (by decide) (by decide)
    (by decide)
